import Mathlib

/-!
# Double-checked locking in `Singleton::getInstance` (src/singleton.cpp)

The development embeds `Singleton::getInstance` (lines 31-46 of
`src/singleton.cpp`) twice:

* `getInstance` is the call as one function on the shared state, for a caller
  that runs without interference;
* `step` is the same code cut at its shared-memory operations (first load,
  lock, second load, `new`, store, unlock), one program point per operation, so
  that several threads can be interleaved (`sysStep`, `runSched`).

`run_six_eq_getInstance` ties the two together.

Conventions.

* A pointer is `Option Addr`; `none` is `nullptr`.
* The constructor `Singleton::Singleton()` is declared at line 26 and defined
  nowhere in the repository.  The outcome of the `k`-th evaluation of
  `new Singleton` is therefore a parameter `ctor k : Option Addr`: `some a` when
  the expression yields the object at address `a`, `none` when it throws.  A
  `new` expression that yields a value never yields `nullptr`, hence `Addr`
  and not `Ptr`.
* `std::mutex` is `Option Tid`: `none` when free, `some t` when held by
  thread `t`.
* The fields `newCalls`, `instances`, `lockCount` and `storeCount` of `Shared`
  are bookkeeping: they record what happened and are never read by the code.
* Interleavings are sequentially consistent: the three memory orders of the
  source are recorded in the names of the program points but do not change the
  value a load returns.
* What the memory orders change is what a thread is sure to see.  `viewStep`
  is `sysStep` with a view per thread, per the rules of `std::atomic` and
  `std::mutex`: a release store leaves the storing thread's view at
  `m_instance`, an acquire load takes it over, unlock and lock do the same at
  `m_mutex`, relaxed accesses carry nothing.  `viewStep_sys` shows that the
  views change nothing else.
-/

namespace Singleton

/-- Address of a constructed `Singleton` object. -/
abbrev Addr := Nat

/-- A `Singleton*`: `none` is `nullptr`. -/
abbrev Ptr := Option Addr

/-- The null pointer. -/
def nullptr : Ptr := none

/-- Thread identifier. -/
abbrev Tid := Nat

/-- Outcome of each evaluation of `new Singleton`, indexed by how many
evaluations came before it: `some a` is the new object, `none` is a throw. -/
abbrev Ctor := Nat → Option Addr

/-- The static members of `Singleton` (lines 28-29) with bookkeeping. -/
structure Shared where
  /-- Line 29: `static std::atomic<Singleton*> m_instance`. -/
  m_instance : Ptr
  /-- Line 28: `static std::mutex m_mutex`, with its owner when held. -/
  m_mutex : Option Tid
  /-- Bookkeeping: evaluations of `new Singleton` so far (line 41). -/
  newCalls : Nat
  /-- Bookkeeping: objects whose construction completed, oldest first. -/
  instances : List Addr
  /-- Bookkeeping: acquisitions of `m_mutex` so far (line 37). -/
  lockCount : Nat
  /-- Bookkeeping: stores to `m_instance` so far (line 42). -/
  storeCount : Nat
deriving DecidableEq, Repr

/-- State at process start: line 29 initialises `m_instance` with `nullptr`,
the mutex is free, nothing has happened. -/
def Shared.init : Shared :=
  { m_instance := nullptr, m_mutex := none, newCalls := 0, instances := [],
    lockCount := 0, storeCount := 0 }

/-- How a call to `getInstance` ends. -/
inductive Outcome where
  /-- Line 45: `return tmp`. -/
  | returned (p : Ptr)
  /-- The exception of `new Singleton` leaves the function. -/
  | threw
  /-- The caller waits at line 37 for a mutex that is held. -/
  | blocked
deriving DecidableEq, Repr

/-- Lines 38-44, entered with the lock held by the caller: second load, and when it
reads `nullptr`, `new Singleton` and the store; the lock guard releases the
mutex at the closing brace, also when `new` throws. -/
def lockedSection (ctor : Ctor) (s : Shared) : Outcome × Shared :=
  match s.m_instance with
  | some a => (Outcome.returned (some a), { s with m_mutex := none })
  | none =>
    match ctor s.newCalls with
    | some a =>
      (Outcome.returned (some a),
        { s with m_instance := some a, m_mutex := none, newCalls := s.newCalls + 1,
                 instances := s.instances ++ [a], storeCount := s.storeCount + 1 })
    | none => (Outcome.threw, { s with m_mutex := none, newCalls := s.newCalls + 1 })

/-- Lines 37-45, the branch taken when the first load read `nullptr`: take the
mutex (wait when it is held), then `lockedSection`. -/
def slowPath (ctor : Ctor) (t : Tid) (s : Shared) : Outcome × Shared :=
  match s.m_mutex with
  | some _ => (Outcome.blocked, s)
  | none => lockedSection ctor { s with m_mutex := some t, lockCount := s.lockCount + 1 }

/-- `Singleton::getInstance` (lines 31-46) called by thread `t` in state `s`,
with no other thread running meanwhile. -/
def getInstance (ctor : Ctor) (t : Tid) (s : Shared) : Outcome × Shared :=
  match s.m_instance with
  | some a => (Outcome.returned (some a), s)
  | none => slowPath ctor t s

/-- Successive calls of `getInstance`, one per caller in the list, each
starting in the state the previous one left: the outcomes in call order and
the final state. -/
def calls (ctor : Ctor) : List Tid → Shared → List Outcome × Shared
  | [], s => ([], s)
  | t :: ts, s =>
    let r := getInstance ctor t s
    let rest := calls ctor ts r.2
    (r.1 :: rest.1, rest.2)

/-- Program point of one thread inside `getInstance`; the value of the local
`tmp` is carried where it is live. -/
inductive Pc where
  /-- Before line 33. -/
  | loadAcquire
  /-- Line 37, `tmp == nullptr`: about to construct the lock guard. -/
  | lock
  /-- Line 38, lock held. -/
  | loadRelaxed
  /-- Line 41, lock held, `tmp == nullptr`. -/
  | construct
  /-- Line 42, lock held, `tmp` is the new object. -/
  | storeRelease (a : Addr)
  /-- Line 44, lock held: the lock guard is about to be destroyed. -/
  | unlock (tmp : Ptr)
  /-- Lock held, `new` threw: the lock guard is destroyed while unwinding. -/
  | unwind
  /-- Line 45 done: the call returned `tmp`. -/
  | returned (tmp : Ptr)
  /-- The exception left the call. -/
  | threw
deriving DecidableEq, Repr

/-- One shared-memory operation of thread `t`.  `none` when the thread cannot
move: its call is over, or it waits for the mutex. -/
def step (ctor : Ctor) (t : Tid) (pc : Pc) (s : Shared) : Option (Pc × Shared) :=
  match pc with
  | Pc.loadAcquire =>
    match s.m_instance with
    | some a => some (Pc.returned (some a), s)
    | none => some (Pc.lock, s)
  | Pc.lock =>
    match s.m_mutex with
    | some _ => none
    | none => some (Pc.loadRelaxed, { s with m_mutex := some t, lockCount := s.lockCount + 1 })
  | Pc.loadRelaxed =>
    match s.m_instance with
    | some a => some (Pc.unlock (some a), s)
    | none => some (Pc.construct, s)
  | Pc.construct =>
    match ctor s.newCalls with
    | some a =>
      some (Pc.storeRelease a,
        { s with newCalls := s.newCalls + 1, instances := s.instances ++ [a] })
    | none => some (Pc.unwind, { s with newCalls := s.newCalls + 1 })
  | Pc.storeRelease a =>
    some (Pc.unlock (some a), { s with m_instance := some a, storeCount := s.storeCount + 1 })
  | Pc.unlock tmp => some (Pc.returned tmp, { s with m_mutex := none })
  | Pc.unwind => some (Pc.threw, { s with m_mutex := none })
  | Pc.returned _ => none
  | Pc.threw => none

/-- Thread `t` alone takes up to `k` steps; it stays where it is once it
cannot move. -/
def run (ctor : Ctor) (t : Tid) : Nat → Pc × Shared → Pc × Shared
  | 0, c => c
  | k + 1, c =>
    match step ctor t c.1 c.2 with
    | some c1 => run ctor t k c1
    | none => c

/-- The outcome a program point stands for once the thread cannot move. -/
def Pc.outcome : Pc → Outcome
  | Pc.returned p => Outcome.returned p
  | Pc.threw => Outcome.threw
  | _ => Outcome.blocked

/-- Program points between the acquisition of `m_mutex` and its release. -/
def Pc.holdsLock : Pc → Bool
  | Pc.loadRelaxed | Pc.construct | Pc.storeRelease _ | Pc.unlock _ | Pc.unwind => true
  | _ => false

/-- The call is over. -/
def Pc.finished : Pc → Bool
  | Pc.returned _ | Pc.threw => true
  | _ => false

/-- The call returned a pointer. -/
def Pc.isReturned : Pc → Bool
  | Pc.returned _ => true
  | _ => false

/-- The call ended, or is about to end, with the exception of `new`. -/
def Pc.failed : Pc → Bool
  | Pc.unwind | Pc.threw => true
  | _ => false

/-- `n` threads, numbered `0 .. n-1`, each inside its own call of
`getInstance`, over one shared state. -/
structure Sys where
  /-- Number of threads. -/
  n : Nat
  /-- Program point of each thread. -/
  pcs : Tid → Pc
  /-- The static members. -/
  shared : Shared

/-- All `n` threads are about to enter `getInstance` for the first time. -/
def Sys.init (n : Nat) : Sys :=
  { n := n, pcs := fun _ => Pc.loadAcquire, shared := Shared.init }

/-- The scheduler picks thread `t`: it takes one step when it exists and can
move, and nothing happens otherwise. -/
def sysStep (ctor : Ctor) (t : Tid) (c : Sys) : Sys :=
  if t < c.n then
    match step ctor t (c.pcs t) c.shared with
    | some r => { c with pcs := Function.update c.pcs t r.1, shared := r.2 }
    | none => c
  else c

/-- Run a schedule, a list of thread picks, from left to right. -/
def runSched (ctor : Ctor) : List Tid → Sys → Sys
  | [], c => c
  | t :: ts, c => runSched ctor ts (sysStep ctor t c)

/-- Every thread of the system has returned from its call. -/
def Sys.allReturned (c : Sys) : Prop := ∀ t, t < c.n → (c.pcs t).isReturned = true

/-- The constructor that always succeeds, giving the object at address 7. -/
def ctorOk : Ctor := fun _ => some 7

/-- The constructor that throws on the first attempt and gives the object at
address 7 from the second attempt on. -/
def ctorFailOnce : Ctor := fun k => if k = 0 then none else some 7

/-- What holds in every state that `n` interleaved calls can reach from the
start of the process. -/
structure Inv (c : Sys) : Prop where
  /-- Mutual exclusion: a thread is between lock and unlock exactly when the
  mutex names it as owner. -/
  mutex : ∀ t, (c.pcs t).holdsLock = true ↔ c.shared.m_mutex = some t
  /-- A published guard is the one constructed object, stored once. -/
  present : ∀ a, c.shared.m_instance = some a →
    c.shared.instances = [a] ∧ c.shared.storeCount = 1
  /-- While the guard is absent nothing was stored, and an object exists only
  when its constructing thread is about to store it. -/
  absent : c.shared.m_instance = none →
    c.shared.storeCount = 0 ∧
      (c.shared.instances = [] ∨ ∃ t a, c.pcs t = Pc.storeRelease a ∧ c.shared.instances = [a])
  /-- A thread about to construct has seen the guard absent under the lock. -/
  atConstruct : ∀ t, c.pcs t = Pc.construct →
    c.shared.m_instance = none ∧ c.shared.instances = []
  /-- A thread about to store holds the one constructed object. -/
  atStore : ∀ t a, c.pcs t = Pc.storeRelease a →
    c.shared.m_instance = none ∧ c.shared.instances = [a]
  /-- A thread about to unlock carries the guard's value, which is not null. -/
  atUnlock : ∀ t p, c.pcs t = Pc.unlock p → c.shared.m_instance = p ∧ p ≠ none
  /-- A thread that returned carries the guard's value, which is not null. -/
  atReturned : ∀ t p, c.pcs t = Pc.returned p → c.shared.m_instance = p ∧ p ≠ none
  /-- Every evaluation of `new` either gave an object or made a thread fail. -/
  counted : c.shared.instances.length ≤ c.shared.newCalls ∧
    (c.shared.instances.length < c.shared.newCalls → ∃ t, t < c.n ∧ (c.pcs t).failed = true)

/-- Upper bound on the steps a thread at this program point can still take. -/
def Pc.remaining : Pc → Nat
  | Pc.loadAcquire => 6
  | Pc.lock => 5
  | Pc.loadRelaxed => 4
  | Pc.construct => 3
  | Pc.storeRelease _ => 2
  | Pc.unlock _ => 1
  | Pc.unwind => 1
  | Pc.returned _ => 0
  | Pc.threw => 0

/-- Upper bound on the steps the whole system can still take. -/
def Sys.todo (c : Sys) : Nat := ∑ t in Finset.range c.n, (c.pcs t).remaining

/-- Every thread of the system has left its call. -/
def Sys.allFinished (c : Sys) : Prop := ∀ t, t < c.n → (c.pcs t).finished = true

/-- The `std::memory_order` values the source uses. -/
inductive MemoryOrder where
  /-- `std::memory_order_relaxed`. -/
  | relaxed
  /-- `std::memory_order_acquire`. -/
  | acquire
  /-- `std::memory_order_release`. -/
  | release
deriving DecidableEq, Repr

/-- The memory orders of the three accesses to `m_instance`. -/
structure Orders where
  /-- Order of the load at line 33. -/
  firstLoad : MemoryOrder
  /-- Order of the load at line 38. -/
  secondLoad : MemoryOrder
  /-- Order of the store at line 42. -/
  store : MemoryOrder
deriving DecidableEq, Repr

/-- The orders written in the source: `memory_order_acquire` at line 33,
`memory_order_relaxed` at line 38, `memory_order_release` at line 42. -/
def sourceOrders : Orders :=
  { firstLoad := MemoryOrder.acquire, secondLoad := MemoryOrder.relaxed,
    store := MemoryOrder.release }

/-- What a thread is sure to see: the objects whose construction, with all the
writes made by the constructor, happens before the thread's next operation. -/
abbrev View := List Addr

/-- The interleaved system together with what each thread sees.  A store with
release order leaves the storing thread's view at `m_instance`, a load with
acquire order adds the view found there to the loading thread's; unlocking
the mutex leaves the view at the mutex and locking adds it; accesses with
other orders carry no view. -/
structure VSys where
  /-- Threads and static members. -/
  sys : Sys
  /-- View of each thread. -/
  views : Tid → View
  /-- View left at `m_instance` by the store that wrote its value. -/
  instView : View
  /-- View left at `m_mutex` by the last unlock. -/
  mutexView : View

/-- At process start no object exists and nobody sees anything. -/
def VSys.init (n : Nat) : VSys :=
  { sys := Sys.init n, views := fun _ => [], instView := [], mutexView := [] }

/-- View of a thread after its operation at program point `pc` that led it to
`pc1`: an acquire load adds the view at `m_instance`, the lock adds the view
at the mutex, a successful `new` adds the new object. -/
def viewAfter (o : Orders) (pc pc1 : Pc) (view instView mutexView : View) : View :=
  match pc with
  | Pc.loadAcquire => if o.firstLoad = MemoryOrder.acquire then view ++ instView else view
  | Pc.lock => view ++ mutexView
  | Pc.loadRelaxed => if o.secondLoad = MemoryOrder.acquire then view ++ instView else view
  | Pc.construct =>
    match pc1 with
    | Pc.storeRelease a => view ++ [a]
    | _ => view
  | _ => view

/-- View at `m_instance` after the operation at `pc` of a thread with view
`view`: a release store leaves the thread's view, another store leaves none. -/
def instViewAfter (o : Orders) (pc : Pc) (view instView : View) : View :=
  match pc with
  | Pc.storeRelease _ => if o.store = MemoryOrder.release then view else []
  | _ => instView

/-- View at `m_mutex` after the operation at `pc` of a thread with view
`view`: the lock guard's unlock leaves the thread's view. -/
def mutexViewAfter (pc : Pc) (view mutexView : View) : View :=
  match pc with
  | Pc.unlock _ => view
  | Pc.unwind => view
  | _ => mutexView

/-- The scheduler picks thread `t`, as `sysStep`, and the views follow. -/
def viewStep (o : Orders) (ctor : Ctor) (t : Tid) (v : VSys) : VSys :=
  if t < v.sys.n then
    match step ctor t (v.sys.pcs t) v.sys.shared with
    | some r =>
      { sys := { v.sys with pcs := Function.update v.sys.pcs t r.1, shared := r.2 },
        views := Function.update v.views t
          (viewAfter o (v.sys.pcs t) r.1 (v.views t) v.instView v.mutexView),
        instView := instViewAfter o (v.sys.pcs t) (v.views t) v.instView,
        mutexView := mutexViewAfter (v.sys.pcs t) (v.views t) v.mutexView }
    | none => v
  else v

/-- Run a schedule with views, from left to right. -/
def runView (o : Orders) (ctor : Ctor) : List Tid → VSys → VSys
  | [], v => v
  | t :: ts, v => runView o ctor ts (viewStep o ctor t v)

/-- What holds of the views in every state reachable with the orders of the
source. -/
structure VInv (v : VSys) : Prop where
  /-- The invariant of the system without views. -/
  base : Inv v.sys
  /-- The published object is in the view left at `m_instance`. -/
  published : ∀ a, v.sys.shared.m_instance = some a → a ∈ v.instView
  /-- A thread about to store sees the object it constructed. -/
  atStore : ∀ t a, v.sys.pcs t = Pc.storeRelease a → a ∈ v.views t
  /-- A thread about to unlock sees the object it carries. -/
  atUnlock : ∀ t a, v.sys.pcs t = Pc.unlock (some a) → a ∈ v.views t
  /-- A thread that returned sees the object it returned. -/
  atReturned : ∀ t a, v.sys.pcs t = Pc.returned (some a) → a ∈ v.views t
  /-- With the mutex free, the published object is in the view left there. -/
  free : ∀ a, v.sys.shared.m_instance = some a → v.sys.shared.m_mutex = none →
    a ∈ v.mutexView
  /-- The holder of the mutex sees the published object. -/
  held : ∀ a t, v.sys.shared.m_instance = some a → v.sys.shared.m_mutex = some t →
    a ∈ v.views t

/-! ## The call as one function and the call as steps agree -/

/-- Six steps of a lone thread from the entry of `getInstance` end where the
function `getInstance` says, in outcome and in state. -/
theorem run_six_eq_getInstance (ctor : Ctor) (t : Tid) (s : Shared) :
    ((run ctor t 6 (Pc.loadAcquire, s)).1.outcome, (run ctor t 6 (Pc.loadAcquire, s)).2)
      = getInstance ctor t s := by
  rcases s with ⟨inst, mtx, nc, ins, lc, sc⟩
  cases inst with
  | some a => simp [run, step, getInstance, Pc.outcome]
  | none =>
    cases mtx with
    | some o => simp [run, step, getInstance, slowPath, Pc.outcome]
    | none =>
      cases hc : ctor nc with
      | some a => simp [run, step, getInstance, slowPath, lockedSection, Pc.outcome, hc]
      | none => simp [run, step, getInstance, slowPath, lockedSection, Pc.outcome, hc]

/-- A call returns exactly when the guard is present, or the mutex is free and
`new Singleton` succeeds. -/
theorem getInstance_returns_iff (ctor : Ctor) (t : Tid) (s : Shared) :
    (∃ p, (getInstance ctor t s).1 = Outcome.returned p) ↔
      (s.m_instance ≠ nullptr ∨ (s.m_mutex = none ∧ ctor s.newCalls ≠ none)) := by
  rcases s with ⟨inst, mtx, nc, ins, lc, sc⟩
  cases inst with
  | some a => simp [getInstance, nullptr]
  | none =>
    cases mtx with
    | some o => simp [getInstance, slowPath, nullptr]
    | none =>
      cases hc : ctor nc with
      | some a => simp [getInstance, slowPath, lockedSection, nullptr, hc]
      | none => simp [getInstance, slowPath, lockedSection, nullptr, hc]

/-- After a call that returned `p`, the guard holds `p` and `p` is not null. -/
theorem getInstance_returned_guard (ctor : Ctor) (t : Tid) (s : Shared) (p : Ptr)
    (h : (getInstance ctor t s).1 = Outcome.returned p) :
    (getInstance ctor t s).2.m_instance = p ∧ p ≠ nullptr := by
  rcases s with ⟨inst, mtx, nc, ins, lc, sc⟩
  cases inst with
  | some a =>
    simp only [getInstance, Outcome.returned.injEq] at h
    subst h
    simp [getInstance, nullptr]
  | none =>
    cases mtx with
    | some o => simp [getInstance, slowPath] at h
    | none =>
      cases hc : ctor nc with
      | some a =>
        simp only [getInstance, slowPath, lockedSection, hc, Outcome.returned.injEq] at h
        subst h
        simp [getInstance, slowPath, lockedSection, nullptr, hc]
      | none => simp [getInstance, slowPath, lockedSection, hc] at h

/-- With the guard present the call is the identity on the state. -/
theorem getInstance_present (ctor : Ctor) (t : Tid) (s : Shared) (a : Addr)
    (h : s.m_instance = some a) :
    getInstance ctor t s = (Outcome.returned (some a), s) := by
  simp [getInstance, h]

/-- Any number of calls with the guard present return it and change nothing. -/
theorem calls_present (ctor : Ctor) (ts : List Tid) (s : Shared) (a : Addr)
    (h : s.m_instance = some a) :
    calls ctor ts s = (List.replicate ts.length (Outcome.returned (some a)), s) := by
  induction ts with
  | nil => simp [calls]
  | cons t ts ih => simp [calls, getInstance_present ctor t s a h, ih, List.replicate_succ]

/-! ## Sequential calls -/

/-- C1 (referential identity).  Whenever the guard is present, or the mutex is
free and `new Singleton` succeeds, a call returns a pointer; and whenever a
call returns `p`, in any state, the guard holds `p` afterwards, `p` is not
null, the next call (by any thread) returns the same `p`, and so does every
call after it, each reading `p` back from `m_instance`. -/
theorem getInstance_same_pointer (ctor : Ctor) (t : Tid) (s : Shared) :
    ((s.m_instance ≠ nullptr ∨ (s.m_mutex = none ∧ ctor s.newCalls ≠ none)) →
      ∃ p, (getInstance ctor t s).1 = Outcome.returned p) ∧
    ∀ p, (getInstance ctor t s).1 = Outcome.returned p →
      (getInstance ctor t s).2.m_instance = p ∧ p ≠ nullptr ∧
      (∀ u, (getInstance ctor u (getInstance ctor t s).2).1 = Outcome.returned p ∧
        (getInstance ctor u (getInstance ctor t s).2).2.m_instance = p) ∧
      ∀ us, (calls ctor us (getInstance ctor t s).2).1
          = List.replicate us.length (Outcome.returned p) ∧
        (calls ctor us (getInstance ctor t s).2).2.m_instance = p := by
  refine ⟨fun h => (getInstance_returns_iff ctor t s).2 h, fun p hp => ?_⟩
  obtain ⟨hg, hn⟩ := getInstance_returned_guard ctor t s p hp
  cases p with
  | none => exact absurd rfl hn
  | some a =>
    refine ⟨hg, hn, fun u => ?_, fun us => ?_⟩
    · rw [getInstance_present ctor u _ a hg]
      exact ⟨rfl, hg⟩
    · rw [calls_present ctor us _ a hg]
      exact ⟨rfl, hg⟩

/-- Witness for C1: from the initial state thread 0 constructs the object at
address 7, and threads 1, 2 and 3 then get that same pointer. -/
theorem getInstance_same_pointer_witness :
    (getInstance ctorOk 0 Shared.init).1 = Outcome.returned (some 7) ∧
    (getInstance ctorOk 1 (getInstance ctorOk 0 Shared.init).2).1
      = Outcome.returned (some 7) ∧
    (calls ctorOk [2, 3] (getInstance ctorOk 0 Shared.init).2).1
      = [Outcome.returned (some 7), Outcome.returned (some 7)] :=
  have h := (getInstance_same_pointer ctorOk 0 Shared.init).2 (some 7) (by decide)
  ⟨by decide, (h.2.2.1 1).1, (h.2.2.2 [2, 3]).1⟩

/-- C2 (never null).  A call that returns never returns `nullptr`.  With the
guard present, whatever the mutex, the call returns the guard's value; with the
guard absent, the mutex free and `new Singleton` yielding the object at `a`,
the call returns `a`, which is the one object this call added to the
constructed ones. -/
theorem getInstance_never_null (ctor : Ctor) (t : Tid) (s : Shared) :
    (∀ p, (getInstance ctor t s).1 = Outcome.returned p → p ≠ nullptr) ∧
    (∀ a, s.m_instance = some a → (getInstance ctor t s).1 = Outcome.returned (some a)) ∧
    (∀ a, s.m_instance = nullptr → s.m_mutex = none → ctor s.newCalls = some a →
      (getInstance ctor t s).1 = Outcome.returned (some a) ∧
      (getInstance ctor t s).2.instances = s.instances ++ [a] ∧
      (getInstance ctor t s).2.m_instance = some a) := by
  refine ⟨fun p hp => (getInstance_returned_guard ctor t s p hp).2, fun a h => ?_,
    fun a h hm hc => ?_⟩
  · rw [getInstance_present ctor t s a h]
  · simp only [nullptr] at h
    simp [getInstance, slowPath, lockedSection, h, hm, hc]

/-- Witness for C2: present guard at address 5 with the mutex held by thread 9,
and absent guard with a successful construction at address 7. -/
theorem getInstance_never_null_witness :
    (getInstance ctorOk 0
      { m_instance := some 5, m_mutex := some 9, newCalls := 1, instances := [5],
        lockCount := 2, storeCount := 1 }).1 = Outcome.returned (some 5) ∧
    (getInstance ctorOk 0 Shared.init).1 = Outcome.returned (some 7) ∧
    (some 7 : Ptr) ≠ nullptr :=
  ⟨(getInstance_never_null ctorOk 0 _).2.1 5 rfl,
   ((getInstance_never_null ctorOk 0 Shared.init).2.2 7 rfl rfl rfl).1,
   (getInstance_never_null ctorOk 0 Shared.init).1 (some 7) (by decide)⟩

/-- C3 (constructed exactly once, sequentially).  From the initial state, when
the first evaluation of `new Singleton` yields the object at `a`: the first
call constructs it and publishes it, and after `n >= 1` calls (the first by
`t`, the others by `ts`) all calls have returned `a`, `new Singleton` has been
evaluated once, one object has been constructed, `m_instance` has been stored
to once and holds `a`; and a call made after the first one, that is after the
calls of `t :: pre` for any `pre`, returns `a` and leaves the whole state,
guard and counts, as it found it. -/
theorem calls_construct_once (ctor : Ctor) (a : Addr) (hc : ctor 0 = some a)
    (t : Tid) (ts : List Tid) :
    (getInstance ctor t Shared.init).2
      = { m_instance := some a, m_mutex := none, newCalls := 1, instances := [a],
          lockCount := 1, storeCount := 1 } ∧
    calls ctor (t :: ts) Shared.init
      = (List.replicate (ts.length + 1) (Outcome.returned (some a)),
          { m_instance := some a, m_mutex := none, newCalls := 1, instances := [a],
            lockCount := 1, storeCount := 1 }) ∧
    ∀ pre u, getInstance ctor u (calls ctor (t :: pre) Shared.init).2
      = (Outcome.returned (some a), (calls ctor (t :: pre) Shared.init).2) := by
  have h1 : getInstance ctor t Shared.init
      = (Outcome.returned (some a),
          { m_instance := some a, m_mutex := none, newCalls := 1, instances := [a],
            lockCount := 1, storeCount := 1 }) := by
    simp [getInstance, slowPath, lockedSection, Shared.init, nullptr, hc]
  have h2 : ∀ us, calls ctor (t :: us) Shared.init
      = (List.replicate (us.length + 1) (Outcome.returned (some a)),
          { m_instance := some a, m_mutex := none, newCalls := 1, instances := [a],
            lockCount := 1, storeCount := 1 }) := by
    intro us
    simp only [calls, h1]
    rw [calls_present ctor us _ a rfl]
    simp [List.replicate_succ]
  refine ⟨by rw [h1], h2 ts, fun pre u => ?_⟩
  rw [h2 pre]
  exact getInstance_present ctor u _ a rfl

/-- Witness for C3: four calls, by threads 0, 1, 2 and 1 again. -/
theorem calls_construct_once_witness :
    calls ctorOk [0, 1, 2, 1] Shared.init
      = (List.replicate 4 (Outcome.returned (some 7)),
          { m_instance := some 7, m_mutex := none, newCalls := 1, instances := [7],
            lockCount := 1, storeCount := 1 }) :=
  (calls_construct_once ctorOk 7 rfl 0 [1, 2, 1]).2.1

/-- C5 (fast path).  With the guard present, whatever the state of the mutex,
the call returns the guard's value and the state after the call is the state
before it: guard, mutex, and the counts of lock acquisitions, stores and
constructions.  As steps, the call is the first load alone: one step from the
entry to the return, after which the thread takes no further step. -/
theorem getInstance_fast_path (ctor : Ctor) (t : Tid) (s : Shared) (a : Addr)
    (h : s.m_instance = some a) :
    getInstance ctor t s = (Outcome.returned (some a), s) ∧
    step ctor t Pc.loadAcquire s = some (Pc.returned (some a), s) ∧
    step ctor t (Pc.returned (some a)) s = none := by
  refine ⟨getInstance_present ctor t s a h, ?_, rfl⟩
  simp [step, h]

/-- Witness for C5: the guard holds address 5 while thread 9 holds the mutex. -/
theorem getInstance_fast_path_witness :
    getInstance ctorOk 0
        { m_instance := some 5, m_mutex := some 9, newCalls := 1, instances := [5],
          lockCount := 2, storeCount := 1 }
      = (Outcome.returned (some 5),
          { m_instance := some 5, m_mutex := some 9, newCalls := 1, instances := [5],
            lockCount := 2, storeCount := 1 }) :=
  (getInstance_fast_path ctorOk 0 _ 5 rfl).1

/-- C6 (failure atomicity).  With the guard absent and the mutex free, when
`new Singleton` throws the call ends with the exception and returns no
pointer; afterwards the guard is still absent, the mutex is free, no object
has been added and no store made: the state differs from the one before only
in the counts of lock acquisitions and of `new` evaluations.  Nothing of the
failure is kept: the next call, by any thread, ends as a call from the state
before would end with the remaining constructor outcomes. -/
theorem getInstance_failure_atomic (ctor : Ctor) (t : Tid) (s : Shared)
    (hi : s.m_instance = nullptr) (hm : s.m_mutex = none) (hc : ctor s.newCalls = none) :
    getInstance ctor t s
      = (Outcome.threw, { s with newCalls := s.newCalls + 1, lockCount := s.lockCount + 1 }) ∧
    (getInstance ctor t s).2.m_instance = nullptr ∧
    (getInstance ctor t s).2.m_mutex = none ∧
    (getInstance ctor t s).2.instances = s.instances ∧
    (getInstance ctor t s).2.storeCount = s.storeCount ∧
    ∀ u, (getInstance ctor u (getInstance ctor t s).2).1
      = (getInstance (fun k => ctor (k + 1)) u s).1 := by
  rcases s with ⟨inst, mtx, nc, ins, lc, sc⟩
  simp only [nullptr] at hi hm hc
  subst hi hm
  have h1 : getInstance ctor t ⟨none, none, nc, ins, lc, sc⟩
      = (Outcome.threw, ⟨none, none, nc + 1, ins, lc + 1, sc⟩) := by
    simp [getInstance, slowPath, lockedSection, hc]
  refine ⟨h1, ?_, ?_, ?_, ?_, fun u => ?_⟩
  · rw [h1]; rfl
  · rw [h1]
  · rw [h1]
  · rw [h1]
  · rw [h1]
    cases h2 : ctor (nc + 1) with
    | some b => simp [getInstance, slowPath, lockedSection, h2]
    | none => simp [getInstance, slowPath, lockedSection, h2]

/-- Witness for C6: the first call from the initial state, with a constructor
that throws on its first attempt. -/
theorem getInstance_failure_atomic_witness :
    getInstance ctorFailOnce 0 Shared.init
      = (Outcome.threw,
          { m_instance := none, m_mutex := none, newCalls := 1, instances := [],
            lockCount := 1, storeCount := 0 }) :=
  (getInstance_failure_atomic ctorFailOnce 0 Shared.init rfl rfl rfl).1

/-- C7 (failure retry).  With the guard absent and the mutex free, when
`new Singleton` throws on this attempt and yields the object at `a` on the
next: the first call ends with the exception and leaves the mutex free and the
guard absent; the second call takes the lock (one more acquisition),
evaluates `new` again, returns `a` and stores it in `m_instance`; `a` is the
one object constructed since the start, after two evaluations of `new`; and
every further call returns `a` and changes nothing. -/
theorem getInstance_failure_retry (ctor : Ctor) (t u : Tid) (s : Shared) (a : Addr)
    (hi : s.m_instance = nullptr) (hm : s.m_mutex = none)
    (hc1 : ctor s.newCalls = none) (hc2 : ctor (s.newCalls + 1) = some a) :
    (getInstance ctor t s).1 = Outcome.threw ∧
    (getInstance ctor t s).2.m_mutex = none ∧
    (getInstance ctor t s).2.m_instance = nullptr ∧
    getInstance ctor u (getInstance ctor t s).2
      = (Outcome.returned (some a),
          { m_instance := some a, m_mutex := none, newCalls := s.newCalls + 2,
            instances := s.instances ++ [a], lockCount := s.lockCount + 2,
            storeCount := s.storeCount + 1 }) ∧
    ∀ us, calls ctor us (getInstance ctor u (getInstance ctor t s).2).2
      = (List.replicate us.length (Outcome.returned (some a)),
          (getInstance ctor u (getInstance ctor t s).2).2) := by
  rcases s with ⟨inst, mtx, nc, ins, lc, sc⟩
  simp only [nullptr] at hi hm hc1 hc2
  subst hi hm
  have h1 : getInstance ctor t ⟨none, none, nc, ins, lc, sc⟩
      = (Outcome.threw, ⟨none, none, nc + 1, ins, lc + 1, sc⟩) := by
    simp [getInstance, slowPath, lockedSection, hc1]
  have h2 : getInstance ctor u ⟨none, none, nc + 1, ins, lc + 1, sc⟩
      = (Outcome.returned (some a), ⟨some a, none, nc + 2, ins ++ [a], lc + 2, sc + 1⟩) := by
    simp [getInstance, slowPath, lockedSection, hc2]
  refine ⟨by rw [h1], by rw [h1], by rw [h1]; rfl, by rw [h1, h2], fun us => ?_⟩
  rw [h1, h2]
  exact calls_present ctor us _ a rfl

/-- Witness for C7: from the initial state, a constructor that throws once;
the calls of threads 0, 1, 2 and 3 end `threw, 7, 7, 7` with one object
constructed in two evaluations of `new`. -/
theorem getInstance_failure_retry_witness :
    (getInstance ctorFailOnce 0 Shared.init).1 = Outcome.threw ∧
    getInstance ctorFailOnce 1 (getInstance ctorFailOnce 0 Shared.init).2
      = (Outcome.returned (some 7),
          { m_instance := some 7, m_mutex := none, newCalls := 2, instances := [7],
            lockCount := 2, storeCount := 1 }) :=
  have h := getInstance_failure_retry ctorFailOnce 0 1 Shared.init 7 rfl rfl rfl rfl
  ⟨h.1, h.2.2.2.1⟩

/-! ## Interleaved calls -/

/-- The invariant holds at the start of the process. -/
theorem inv_init (n : Nat) : Inv (Sys.init n) := by
  constructor <;> simp [Sys.init, Shared.init, Pc.holdsLock, nullptr]

/-- Two threads between lock and unlock are the same thread. -/
theorem Inv.owner_unique {c : Sys} (h : Inv c) {t u : Tid}
    (ht : (c.pcs t).holdsLock = true) (hu : (c.pcs u).holdsLock = true) : u = t := by
  have h1 := (h.mutex t).1 ht
  have h2 := (h.mutex u).1 hu
  rw [h1] at h2
  exact (Option.some.inj h2).symm

/-- A thread whose step leaves the shared state alone, keeps its hold on the
lock, was not about to store and has not failed, keeps the invariant as soon
as the facts of its new program point hold. -/
theorem Inv.move {c : Sys} (h : Inv c) (t : Tid) (pc : Pc)
    (hl : pc.holdsLock = (c.pcs t).holdsLock)
    (hs : ∀ a, c.pcs t ≠ Pc.storeRelease a)
    (hf : (c.pcs t).failed = true → pc.failed = true)
    (h1 : pc = Pc.construct → c.shared.m_instance = none ∧ c.shared.instances = [])
    (h2 : ∀ a, pc = Pc.storeRelease a → c.shared.m_instance = none ∧ c.shared.instances = [a])
    (h3 : ∀ p, pc = Pc.unlock p → c.shared.m_instance = p ∧ p ≠ none)
    (h4 : ∀ p, pc = Pc.returned p → c.shared.m_instance = p ∧ p ≠ none) :
    Inv { c with pcs := Function.update c.pcs t pc } := by
  refine ⟨fun u => ?_, h.present, fun hi => ⟨(h.absent hi).1, ?_⟩, fun u => ?_, fun u a => ?_,
    fun u p => ?_, fun u p => ?_, h.counted.1, fun hlt => ?_⟩
  · by_cases hu : u = t
    · subst hu
      simpa [hl] using h.mutex u
    · simpa [Function.update_apply, hu] using h.mutex u
  · rcases (h.absent hi).2 with h0 | ⟨u, a, hu, ha⟩
    · exact Or.inl h0
    · refine Or.inr ⟨u, a, ?_, ha⟩
      have hne : u ≠ t := fun e => hs a (e ▸ hu)
      simpa [Function.update_apply, hne] using hu
  · by_cases hu : u = t
    · subst hu
      simpa using h1
    · simpa [Function.update_apply, hu] using h.atConstruct u
  · by_cases hu : u = t
    · subst hu
      simpa using h2 a
    · simpa [Function.update_apply, hu] using h.atStore u a
  · by_cases hu : u = t
    · subst hu
      simpa using h3 p
    · simpa [Function.update_apply, hu] using h.atUnlock u p
  · by_cases hu : u = t
    · subst hu
      simpa using h4 p
    · simpa [Function.update_apply, hu] using h.atReturned u p
  · obtain ⟨u, hun, huf⟩ := h.counted.2 hlt
    refine ⟨u, hun, ?_⟩
    by_cases hu : u = t
    · subst hu
      simpa using hf huf
    · simpa [Function.update_apply, hu] using huf

/-- Taking the free mutex keeps the invariant. -/
theorem Inv.acquire {c : Sys} (h : Inv c) (t : Tid) (hpc : c.pcs t = Pc.lock)
    (hm : c.shared.m_mutex = none) :
    Inv { c with pcs := Function.update c.pcs t Pc.loadRelaxed,
                 shared := { c.shared with m_mutex := some t,
                                           lockCount := c.shared.lockCount + 1 } } := by
  have hfree : ∀ u, (c.pcs u).holdsLock = false := fun u => by
    have := h.mutex u
    rw [hm] at this
    simpa using this
  refine ⟨fun u => ?_, h.present, fun hi => ⟨(h.absent hi).1, ?_⟩, fun u => ?_, fun u a => ?_,
    fun u p => ?_, fun u p => ?_, h.counted.1, fun hlt => ?_⟩
  · by_cases hu : u = t
    · subst hu
      simp [Pc.holdsLock]
    · have hne : t ≠ u := fun e => hu e.symm
      simp [Function.update_apply, hu, hfree u, hne]
  · rcases (h.absent hi).2 with h0 | ⟨u, a, hu, ha⟩
    · exact Or.inl h0
    · have := hfree u
      simp [hu, Pc.holdsLock] at this
  · by_cases hu : u = t
    · subst hu
      simp
    · simpa [Function.update_apply, hu] using h.atConstruct u
  · by_cases hu : u = t
    · subst hu
      simp
    · simpa [Function.update_apply, hu] using h.atStore u a
  · by_cases hu : u = t
    · subst hu
      simp
    · simpa [Function.update_apply, hu] using h.atUnlock u p
  · by_cases hu : u = t
    · subst hu
      simp
    · simpa [Function.update_apply, hu] using h.atReturned u p
  · obtain ⟨u, hun, huf⟩ := h.counted.2 hlt
    refine ⟨u, hun, ?_⟩
    by_cases hu : u = t
    · subst hu
      simp [hpc, Pc.failed] at huf
    · simpa [Function.update_apply, hu] using huf

/-- Releasing the mutex, on return or while unwinding, keeps the invariant. -/
theorem Inv.release {c : Sys} (h : Inv c) (t : Tid) (pc : Pc)
    (hold : (c.pcs t).holdsLock = true) (hl : pc.holdsLock = false)
    (hs : ∀ a, c.pcs t ≠ Pc.storeRelease a)
    (hf : (c.pcs t).failed = true → pc.failed = true)
    (h1 : pc ≠ Pc.construct) (h2 : ∀ a, pc ≠ Pc.storeRelease a) (h3 : ∀ p, pc ≠ Pc.unlock p)
    (h4 : ∀ p, pc = Pc.returned p → c.shared.m_instance = p ∧ p ≠ none) :
    Inv { c with pcs := Function.update c.pcs t pc,
                 shared := { c.shared with m_mutex := none } } := by
  have hother : ∀ u, u ≠ t → (c.pcs u).holdsLock = false := fun u hu => by
    cases hb : (c.pcs u).holdsLock with
    | false => rfl
    | true => exact absurd (h.owner_unique hold hb) hu
  refine ⟨fun u => ?_, h.present, fun hi => ⟨(h.absent hi).1, ?_⟩, fun u => ?_, fun u a => ?_,
    fun u p => ?_, fun u p => ?_, h.counted.1, fun hlt => ?_⟩
  · by_cases hu : u = t
    · subst hu
      simp [hl]
    · simp [Function.update_apply, hu, hother u hu]
  · rcases (h.absent hi).2 with h0 | ⟨u, a, hu, ha⟩
    · exact Or.inl h0
    · refine Or.inr ⟨u, a, ?_, ha⟩
      have hne : u ≠ t := fun e => hs a (e ▸ hu)
      simpa [Function.update_apply, hne] using hu
  · by_cases hu : u = t
    · subst hu
      simp [h1]
    · simpa [Function.update_apply, hu] using h.atConstruct u
  · by_cases hu : u = t
    · subst hu
      simp [h2]
    · simpa [Function.update_apply, hu] using h.atStore u a
  · by_cases hu : u = t
    · subst hu
      simp [h3]
    · simpa [Function.update_apply, hu] using h.atUnlock u p
  · by_cases hu : u = t
    · subst hu
      simpa using h4 p
    · simpa [Function.update_apply, hu] using h.atReturned u p
  · obtain ⟨u, hun, huf⟩ := h.counted.2 hlt
    refine ⟨u, hun, ?_⟩
    by_cases hu : u = t
    · subst hu
      simpa using hf huf
    · simpa [Function.update_apply, hu] using huf

/-- A successful `new Singleton` under the lock keeps the invariant. -/
theorem Inv.constructed {c : Sys} (h : Inv c) (t : Tid) (a : Addr)
    (hpc : c.pcs t = Pc.construct) :
    Inv { c with pcs := Function.update c.pcs t (Pc.storeRelease a),
                 shared := { c.shared with newCalls := c.shared.newCalls + 1,
                                           instances := c.shared.instances ++ [a] } } := by
  have hold : (c.pcs t).holdsLock = true := by simp [hpc, Pc.holdsLock]
  obtain ⟨hnone, hnil⟩ := h.atConstruct t hpc
  have hother : ∀ u, u ≠ t → (c.pcs u).holdsLock = false := fun u hu => by
    cases hb : (c.pcs u).holdsLock with
    | false => rfl
    | true => exact absurd (h.owner_unique hold hb) hu
  refine ⟨fun u => ?_, fun b hb => ?_, fun hi => ⟨(h.absent hi).1, ?_⟩, fun u => ?_,
    fun u b => ?_, fun u p => ?_, fun u p => ?_, ?_, fun hlt => ?_⟩
  · by_cases hu : u = t
    · subst hu
      simpa [Pc.holdsLock, hpc] using h.mutex u
    · simpa [Function.update_apply, hu] using h.mutex u
  · simp [hnone] at hb
  · exact Or.inr ⟨t, a, by simp, by simp [hnil]⟩
  · by_cases hu : u = t
    · subst hu
      simp
    · intro hq
      have hq2 : c.pcs u = Pc.construct := by simpa [Function.update_apply, hu] using hq
      have := hother u hu
      simp [hq2, Pc.holdsLock] at this
  · by_cases hu : u = t
    · subst hu
      intro hq
      have hq2 : a = b := by simpa using hq
      subst hq2
      exact ⟨hnone, by simp [hnil]⟩
    · intro hq
      have hq2 : c.pcs u = Pc.storeRelease b := by simpa [Function.update_apply, hu] using hq
      have := hother u hu
      simp [hq2, Pc.holdsLock] at this
  · by_cases hu : u = t
    · subst hu
      simp
    · simpa [Function.update_apply, hu] using h.atUnlock u p
  · by_cases hu : u = t
    · subst hu
      simp
    · simpa [Function.update_apply, hu] using h.atReturned u p
  · simp [hnil]
  · have hlt2 : c.shared.instances.length < c.shared.newCalls := by
      simpa [hnil] using hlt
    obtain ⟨u, hun, huf⟩ := h.counted.2 hlt2
    refine ⟨u, hun, ?_⟩
    by_cases hu : u = t
    · subst hu
      simp [hpc, Pc.failed] at huf
    · simpa [Function.update_apply, hu] using huf

/-- A throwing `new Singleton` under the lock keeps the invariant. -/
theorem Inv.constructFailed {c : Sys} (h : Inv c) (t : Tid) (htn : t < c.n)
    (hpc : c.pcs t = Pc.construct) :
    Inv { c with pcs := Function.update c.pcs t Pc.unwind,
                 shared := { c.shared with newCalls := c.shared.newCalls + 1 } } := by
  refine ⟨fun u => ?_, h.present, fun hi => ⟨(h.absent hi).1, ?_⟩, fun u => ?_, fun u a => ?_,
    fun u p => ?_, fun u p => ?_, Nat.le_succ_of_le h.counted.1, fun _ => ⟨t, htn, by simp [Pc.failed]⟩⟩
  · by_cases hu : u = t
    · subst hu
      simpa [Pc.holdsLock, hpc] using h.mutex u
    · simpa [Function.update_apply, hu] using h.mutex u
  · exact Or.inl (h.atConstruct t hpc).2
  · by_cases hu : u = t
    · subst hu
      simp
    · simpa [Function.update_apply, hu] using h.atConstruct u
  · by_cases hu : u = t
    · subst hu
      simp
    · simpa [Function.update_apply, hu] using h.atStore u a
  · by_cases hu : u = t
    · subst hu
      simp
    · simpa [Function.update_apply, hu] using h.atUnlock u p
  · by_cases hu : u = t
    · subst hu
      simp
    · simpa [Function.update_apply, hu] using h.atReturned u p

/-- Publishing the new object under the lock keeps the invariant. -/
theorem Inv.published {c : Sys} (h : Inv c) (t : Tid) (a : Addr)
    (hpc : c.pcs t = Pc.storeRelease a) :
    Inv { c with pcs := Function.update c.pcs t (Pc.unlock (some a)),
                 shared := { c.shared with m_instance := some a,
                                           storeCount := c.shared.storeCount + 1 } } := by
  have hold : (c.pcs t).holdsLock = true := by simp [hpc, Pc.holdsLock]
  obtain ⟨hnone, hone⟩ := h.atStore t a hpc
  have hother : ∀ u, u ≠ t → (c.pcs u).holdsLock = false := fun u hu => by
    cases hb : (c.pcs u).holdsLock with
    | false => rfl
    | true => exact absurd (h.owner_unique hold hb) hu
  refine ⟨fun u => ?_, fun b hb => ?_, fun hi => ?_, fun u => ?_,
    fun u b => ?_, fun u p => ?_, fun u p => ?_, h.counted.1, fun hlt => ?_⟩
  · by_cases hu : u = t
    · subst hu
      simpa [Pc.holdsLock, hpc] using h.mutex u
    · simpa [Function.update_apply, hu] using h.mutex u
  · have hab : a = b := by simpa using hb
    subst hab
    exact ⟨hone, by simp [(h.absent hnone).1]⟩
  · simp at hi
  · by_cases hu : u = t
    · subst hu
      simp
    · intro hq
      have hq2 : c.pcs u = Pc.construct := by simpa [Function.update_apply, hu] using hq
      have := hother u hu
      simp [hq2, Pc.holdsLock] at this
  · by_cases hu : u = t
    · subst hu
      simp
    · intro hq
      have hq2 : c.pcs u = Pc.storeRelease b := by simpa [Function.update_apply, hu] using hq
      have := hother u hu
      simp [hq2, Pc.holdsLock] at this
  · by_cases hu : u = t
    · subst hu
      intro hq
      have hq2 : some a = p := by simpa using hq
      subst hq2
      exact ⟨rfl, by simp⟩
    · intro hq
      have hq2 : c.pcs u = Pc.unlock p := by simpa [Function.update_apply, hu] using hq
      have := hother u hu
      simp [hq2, Pc.holdsLock] at this
  · by_cases hu : u = t
    · subst hu
      simp
    · intro hq
      have hq2 : c.pcs u = Pc.returned p := by simpa [Function.update_apply, hu] using hq
      obtain ⟨e1, e2⟩ := h.atReturned u p hq2
      rw [hnone] at e1
      exact absurd e1.symm e2
  · obtain ⟨u, hun, huf⟩ := h.counted.2 hlt
    refine ⟨u, hun, ?_⟩
    by_cases hu : u = t
    · subst hu
      simp [hpc, Pc.failed] at huf
    · simpa [Function.update_apply, hu] using huf

/-- Every step of every thread keeps the invariant. -/
theorem inv_step (ctor : Ctor) (t : Tid) (c : Sys) (h : Inv c) : Inv (sysStep ctor t c) := by
  unfold sysStep
  split
  · rename_i htn
    cases hpc : c.pcs t with
    | loadAcquire =>
      cases hi : c.shared.m_instance with
      | some a =>
        simp only [step, hi]
        exact h.move t _ (by simp [hpc, Pc.holdsLock]) (by simp [hpc]) (by simp [hpc, Pc.failed])
          (by simp) (by simp) (by simp) (by simp [hi])
      | none =>
        simp only [step, hi]
        exact h.move t _ (by simp [hpc, Pc.holdsLock]) (by simp [hpc]) (by simp [hpc, Pc.failed])
          (by simp) (by simp) (by simp) (by simp)
    | lock =>
      cases hm : c.shared.m_mutex with
      | some o =>
        simp only [step, hm]
        exact h
      | none =>
        simp only [step, hm]
        have := h.acquire t hpc hm
        simpa [hm] using this
    | loadRelaxed =>
      have hold : (c.pcs t).holdsLock = true := by simp [hpc, Pc.holdsLock]
      cases hi : c.shared.m_instance with
      | some a =>
        simp only [step, hi]
        exact h.move t _ (by simp [hpc, Pc.holdsLock]) (by simp [hpc]) (by simp [hpc, Pc.failed])
          (by simp) (by simp) (by simp [hi]) (by simp)
      | none =>
        simp only [step, hi]
        refine h.move t _ (by simp [hpc, Pc.holdsLock]) (by simp [hpc]) (by simp [hpc, Pc.failed])
          (fun _ => ⟨hi, ?_⟩) (by simp) (by simp) (by simp)
        rcases (h.absent hi).2 with h0 | ⟨u, a, hu, _⟩
        · exact h0
        · have hut : u = t := h.owner_unique hold (by simp [hu, Pc.holdsLock])
          rw [hut, hpc] at hu
          cases hu
    | construct =>
      cases hc : ctor c.shared.newCalls with
      | some a =>
        simp only [step, hc]
        exact h.constructed t a hpc
      | none =>
        simp only [step, hc]
        exact h.constructFailed t htn hpc
    | storeRelease a =>
      simp only [step]
      exact h.published t a hpc
    | unlock p =>
      simp only [step]
      exact h.release t _ (by simp [hpc, Pc.holdsLock]) (by simp [Pc.holdsLock]) (by simp [hpc])
        (by simp [hpc, Pc.failed]) (by simp) (by simp) (by simp)
        (fun q hq => by
          have hq2 : p = q := by simpa using hq
          subst hq2
          exact h.atUnlock t p hpc)
    | unwind =>
      simp only [step]
      exact h.release t _ (by simp [hpc, Pc.holdsLock]) (by simp [Pc.holdsLock]) (by simp [hpc])
        (by simp [Pc.failed]) (by simp) (by simp) (by simp) (by simp)
    | returned p => simp only [step]; exact h
    | threw => simp only [step]; exact h
  · exact h

/-- The invariant holds after every schedule from every state where it holds. -/
theorem inv_runSched (ctor : Ctor) (sched : List Tid) (c : Sys) (h : Inv c) :
    Inv (runSched ctor sched c) := by
  induction sched generalizing c with
  | nil => exact h
  | cons t ts ih => exact ih _ (inv_step ctor t c h)

/-- A step does not change the number of threads. -/
theorem sysStep_n (ctor : Ctor) (t : Tid) (c : Sys) : (sysStep ctor t c).n = c.n := by
  unfold sysStep
  split
  · split <;> rfl
  · rfl

/-- A step of `t` leaves the program points of the other threads alone. -/
theorem sysStep_other (ctor : Ctor) (t u : Tid) (c : Sys) (hu : u ≠ t) :
    (sysStep ctor t c).pcs u = c.pcs u := by
  unfold sysStep
  split
  · split
    · simp [Function.update_apply, hu]
    · rfl
  · rfl

/-- A schedule does not change the number of threads. -/
theorem runSched_n (ctor : Ctor) (sched : List Tid) (c : Sys) :
    (runSched ctor sched c).n = c.n := by
  induction sched generalizing c with
  | nil => rfl
  | cons t ts ih => rw [runSched, ih, sysStep_n]

/-- Threads outside the system never move. -/
theorem sysStep_idle (ctor : Ctor) (t : Tid) (c : Sys)
    (h : ∀ u, c.n ≤ u → c.pcs u = Pc.loadAcquire) :
    ∀ u, (sysStep ctor t c).n ≤ u → (sysStep ctor t c).pcs u = Pc.loadAcquire := by
  intro u hu
  rw [sysStep_n] at hu
  by_cases hut : u = t
  · subst hut
    have hnot : ¬ u < c.n := by omega
    simp only [sysStep, hnot, if_false]
    exact h u hu
  · rw [sysStep_other ctor t u c hut]
    exact h u hu

/-- When `new Singleton` never throws, a step makes no thread fail. -/
theorem sysStep_noFail (ctor : Ctor) (hc : ∀ k, ctor k ≠ none) (t : Tid) (c : Sys)
    (h : ∀ u, (c.pcs u).failed = false) : ∀ u, ((sysStep ctor t c).pcs u).failed = false := by
  intro u
  by_cases hut : u = t
  · subst hut
    unfold sysStep
    split
    · cases hpc : c.pcs u with
      | loadAcquire => cases hi : c.shared.m_instance <;> simp [step, hi, Pc.failed]
      | lock => cases hm : c.shared.m_mutex <;> simp [step, hm, Pc.failed, hpc]
      | loadRelaxed => cases hi : c.shared.m_instance <;> simp [step, hi, Pc.failed]
      | construct =>
        cases hk : ctor c.shared.newCalls with
        | none => exact absurd hk (hc _)
        | some a => simp [step, hk, Pc.failed]
      | storeRelease a => simp [step, Pc.failed]
      | unlock p => simp [step, Pc.failed]
      | unwind =>
        have := h u
        simp [hpc, Pc.failed] at this
      | returned p => simp [step, Pc.failed, hpc]
      | threw =>
        have := h u
        simp [hpc, Pc.failed] at this
    · exact h u
  · rw [sysStep_other ctor t u c hut]
    exact h u

/-- When `new Singleton` never throws, no thread has failed after any
schedule from a state where none has. -/
theorem runSched_noFail (ctor : Ctor) (hc : ∀ k, ctor k ≠ none) (sched : List Tid) (c : Sys)
    (h : ∀ u, (c.pcs u).failed = false) :
    ∀ u, ((runSched ctor sched c).pcs u).failed = false := by
  induction sched generalizing c with
  | nil => exact h
  | cons t ts ih => exact ih _ (sysStep_noFail ctor hc t c h)

/-! ## Every interleaving can be run to its end -/

/-- A step that is taken brings its thread closer to the end of the call. -/
theorem step_remaining (ctor : Ctor) (t : Tid) (pc : Pc) (s : Shared) (r : Pc × Shared)
    (h : step ctor t pc s = some r) : r.1.remaining < pc.remaining := by
  cases pc with
  | loadAcquire =>
    cases hi : s.m_instance <;> simp [step, hi] at h <;> subst h <;> simp [Pc.remaining]
  | lock =>
    cases hm : s.m_mutex <;> simp [step, hm] at h
    subst h
    simp [Pc.remaining]
  | loadRelaxed =>
    cases hi : s.m_instance <;> simp [step, hi] at h <;> subst h <;> simp [Pc.remaining]
  | construct =>
    cases hk : ctor s.newCalls <;> simp [step, hk] at h <;> subst h <;> simp [Pc.remaining]
  | storeRelease a =>
    simp [step] at h
    subst h
    simp [Pc.remaining]
  | unlock p =>
    simp [step] at h
    subst h
    simp [Pc.remaining]
  | unwind =>
    simp [step] at h
    subst h
    simp [Pc.remaining]
  | returned p => simp [step] at h
  | threw => simp [step] at h

/-- A step that is taken lowers the bound on the steps left. -/
theorem sysStep_todo (ctor : Ctor) (t : Tid) (c : Sys) (htn : t < c.n)
    (r : Pc × Shared) (h : step ctor t (c.pcs t) c.shared = some r) :
    (sysStep ctor t c).todo < c.todo := by
  have hlt := step_remaining ctor t (c.pcs t) c.shared r h
  simp only [sysStep, htn, if_true, h, Sys.todo]
  apply Finset.sum_lt_sum
  · intro u _
    by_cases hu : u = t
    · subst hu
      simpa using Nat.le_of_lt hlt
    · simp [Function.update_apply, hu]
  · exact ⟨t, Finset.mem_range.2 htn, by simpa using hlt⟩

/-- A thread whose call is not over can take a step unless it waits for a
mutex that is held. -/
theorem step_enabled (ctor : Ctor) (t : Tid) (pc : Pc) (s : Shared)
    (hrem : 0 < pc.remaining) (hl : pc = Pc.lock → s.m_mutex = none) :
    ∃ r, step ctor t pc s = some r := by
  cases pc with
  | loadAcquire => cases hi : s.m_instance <;> simp [step, hi]
  | lock => simp [step, hl rfl]
  | loadRelaxed => cases hi : s.m_instance <;> simp [step, hi]
  | construct => cases hk : ctor s.newCalls <;> simp [step, hk]
  | storeRelease a => simp [step]
  | unlock p => simp [step]
  | unwind => simp [step]
  | returned p => simp [Pc.remaining] at hrem
  | threw => simp [Pc.remaining] at hrem

/-- No deadlock: while some call is not over, some thread can take a step. -/
theorem Inv.enabled {c : Sys} (h : Inv c) (hidle : ∀ u, c.n ≤ u → c.pcs u = Pc.loadAcquire)
    (ctor : Ctor) (hpos : 0 < c.todo) :
    ∃ t r, t < c.n ∧ step ctor t (c.pcs t) c.shared = some r := by
  have hex : ∃ t, t < c.n ∧ 0 < (c.pcs t).remaining := by
    by_contra hno
    have hz : c.todo = 0 := by
      apply Finset.sum_eq_zero
      intro u hu
      by_contra hne
      exact hno ⟨u, Finset.mem_range.1 hu, Nat.pos_of_ne_zero hne⟩
    omega
  obtain ⟨t, htn, hrem⟩ := hex
  cases hm : c.shared.m_mutex with
  | none =>
    obtain ⟨r, hr⟩ := step_enabled ctor t (c.pcs t) c.shared hrem (fun _ => hm)
    exact ⟨t, r, htn, hr⟩
  | some o =>
    have ho : (c.pcs o).holdsLock = true := (h.mutex o).2 hm
    have hon : o < c.n := by
      by_contra hge
      have := hidle o (Nat.le_of_not_lt hge)
      simp [this, Pc.holdsLock] at ho
    have hrem2 : 0 < (c.pcs o).remaining := by
      cases hpc : c.pcs o <;> simp [hpc, Pc.holdsLock] at ho <;> simp [Pc.remaining]
    have hnl : c.pcs o = Pc.lock → c.shared.m_mutex = none := by
      intro hpc
      simp [hpc, Pc.holdsLock] at ho
    obtain ⟨r, hr⟩ := step_enabled ctor o (c.pcs o) c.shared hrem2 hnl
    exact ⟨o, r, hon, hr⟩

/-- A schedule followed by another is the two run one after the other. -/
theorem runSched_append (ctor : Ctor) (s1 s2 : List Tid) (c : Sys) :
    runSched ctor (s1 ++ s2) c = runSched ctor s2 (runSched ctor s1 c) := by
  induction s1 generalizing c with
  | nil => rfl
  | cons t ts ih => simp [runSched, ih]

/-- From every state of the invariant some schedule ends every call. -/
theorem Inv.completes (ctor : Ctor) (m : Nat) :
    ∀ c : Sys, Inv c → (∀ u, c.n ≤ u → c.pcs u = Pc.loadAcquire) → c.todo ≤ m →
      ∃ more, (runSched ctor more c).allFinished := by
  induction m with
  | zero =>
    intro c _ _ hm
    refine ⟨[], fun t htn => ?_⟩
    have hz : (c.pcs t).remaining = 0 := by
      have hsum : c.todo = 0 := Nat.le_zero.1 hm
      exact (Finset.sum_eq_zero_iff.1 hsum) t (Finset.mem_range.2 htn)
    simp only [runSched]
    cases hpc : c.pcs t <;> simp [hpc, Pc.remaining] at hz <;> simp [Pc.finished]
  | succ m ih =>
    intro c h hidle hm
    by_cases hz : c.todo = 0
    · exact ih c h hidle (by omega)
    · obtain ⟨t, r, htn, hr⟩ := h.enabled hidle ctor (Nat.pos_of_ne_zero hz)
      have hlt := sysStep_todo ctor t c htn r hr
      obtain ⟨more, hmore⟩ := ih (sysStep ctor t c) (inv_step ctor t c h)
        (sysStep_idle ctor t c hidle) (by omega)
      exact ⟨t :: more, hmore⟩

/-- Threads outside the system have not moved after any schedule. -/
theorem runSched_idle (ctor : Ctor) (sched : List Tid) (c : Sys)
    (h : ∀ u, c.n ≤ u → c.pcs u = Pc.loadAcquire) :
    ∀ u, (runSched ctor sched c).n ≤ u → (runSched ctor sched c).pcs u = Pc.loadAcquire := by
  induction sched generalizing c with
  | nil => exact h
  | cons t ts ih => exact ih _ (sysStep_idle ctor t c h)

/-- In a state of the invariant at most one object exists and at most one
store was made. -/
theorem Inv.at_most_one {c : Sys} (h : Inv c) :
    c.shared.instances.length ≤ 1 ∧ c.shared.storeCount ≤ 1 := by
  cases hi : c.shared.m_instance with
  | some a =>
    obtain ⟨h1, h2⟩ := h.present a hi
    simp [h1, h2]
  | none =>
    obtain ⟨h1, h2⟩ := h.absent hi
    rcases h2 with h0 | ⟨_, a, _, ha⟩
    · simp [h0, h1]
    · simp [ha, h1]

/-- C4, as amended (single construction under interleaving).  `n >= 2` threads enter
`getInstance` at process start and their steps (first load, lock, second
load, `new`, store, unlock) are interleaved by an arbitrary schedule, any
prefix of an execution included.  In every state so reached: at most one
object has been constructed and at most one store to `m_instance` made; when
`new Singleton` never throws, `new` has been evaluated at most once; when all
`n` calls have returned, `new` has been evaluated exactly once, exactly one
object exists and every call returned its address.  Every such interleaving
can be continued until all calls are over, and when `new Singleton` never
throws, until all calls have returned. -/
theorem single_construction (ctor : Ctor) (n : Nat) (hn : 2 ≤ n) (sched : List Tid) :
    (runSched ctor sched (Sys.init n)).shared.instances.length ≤ 1 ∧
    (runSched ctor sched (Sys.init n)).shared.storeCount ≤ 1 ∧
    ((∀ k, ctor k ≠ none) → (runSched ctor sched (Sys.init n)).shared.newCalls ≤ 1) ∧
    ((runSched ctor sched (Sys.init n)).allReturned →
      (runSched ctor sched (Sys.init n)).shared.newCalls = 1 ∧
      ∃ a, (runSched ctor sched (Sys.init n)).shared.instances = [a] ∧
        (runSched ctor sched (Sys.init n)).shared.m_instance = some a ∧
        ∀ t, t < n → (runSched ctor sched (Sys.init n)).pcs t = Pc.returned (some a)) ∧
    (∃ more, (runSched ctor (sched ++ more) (Sys.init n)).allFinished) ∧
    ((∀ k, ctor k ≠ none) →
      ∃ more, (runSched ctor (sched ++ more) (Sys.init n)).allReturned) := by
  have hinv : Inv (runSched ctor sched (Sys.init n)) := inv_runSched ctor sched _ (inv_init n)
  have hnn : (runSched ctor sched (Sys.init n)).n = n := runSched_n ctor sched _
  have hidle := runSched_idle ctor sched (Sys.init n) (fun _ _ => rfl)
  have hdone : ∃ more, (runSched ctor (sched ++ more) (Sys.init n)).allFinished := by
    obtain ⟨more, hmore⟩ := Inv.completes ctor _ _ hinv hidle (Nat.le_refl _)
    exact ⟨more, by rw [runSched_append]; exact hmore⟩
  refine ⟨hinv.at_most_one.1, hinv.at_most_one.2, fun hc => ?_, fun hall => ?_, hdone,
    fun hc => ?_⟩
  · have hnf := runSched_noFail ctor hc sched (Sys.init n) (fun _ => rfl)
    have hle : (runSched ctor sched (Sys.init n)).shared.newCalls
        ≤ (runSched ctor sched (Sys.init n)).shared.instances.length := by
      by_contra hlt
      obtain ⟨u, _, huf⟩ := hinv.counted.2 (Nat.lt_of_not_le hlt)
      rw [hnf u] at huf
      cases huf
    exact Nat.le_trans hle hinv.at_most_one.1
  · have hret : ∀ t, t < n → ∃ p, (runSched ctor sched (Sys.init n)).pcs t = Pc.returned p := by
      intro t ht
      have := hall t (by rw [hnn]; exact ht)
      cases hpc : (runSched ctor sched (Sys.init n)).pcs t <;> simp [hpc, Pc.isReturned] at this
      exact ⟨_, rfl⟩
    obtain ⟨p, hp⟩ := hret 0 (by omega)
    obtain ⟨hg, hne⟩ := hinv.atReturned 0 p hp
    cases p with
    | none => exact absurd rfl hne
    | some a =>
      obtain ⟨hone, _⟩ := hinv.present a hg
      refine ⟨?_, a, hone, hg, fun t ht => ?_⟩
      · have hle := hinv.counted.1
        rw [hone] at hle
        by_contra hne1
        have hlt : (runSched ctor sched (Sys.init n)).shared.instances.length
            < (runSched ctor sched (Sys.init n)).shared.newCalls := by
          rw [hone]
          simp only [List.length_singleton] at hle ⊢
          omega
        obtain ⟨u, hun, huf⟩ := hinv.counted.2 hlt
        obtain ⟨q, hq⟩ := hret u (by rw [← hnn]; exact hun)
        simp [hq, Pc.failed] at huf
      · obtain ⟨q, hq⟩ := hret t ht
        obtain ⟨hgq, _⟩ := hinv.atReturned t q hq
        rw [hq, ← hgq, hg]
  · obtain ⟨more, hmore⟩ := hdone
    refine ⟨more, fun t ht => ?_⟩
    have hfin := hmore t ht
    have hnf := runSched_noFail ctor hc (sched ++ more) (Sys.init n) (fun _ => rfl) t
    cases hpc : (runSched ctor (sched ++ more) (Sys.init n)).pcs t <;>
      simp [hpc, Pc.finished, Pc.failed, Pc.isReturned] at hfin hnf ⊢

/-- Witness for C4: two threads both read `nullptr` before either takes the
lock; thread 0 constructs and publishes the object at address 7, thread 1
then finds it on the second load.  Both return it and `new` ran once. -/
theorem single_construction_witness :
    (runSched ctorOk [0, 1, 0, 0, 0, 0, 0, 1, 1, 1] (Sys.init 2)).shared.newCalls = 1 ∧
    (runSched ctorOk [0, 1, 0, 0, 0, 0, 0, 1, 1, 1] (Sys.init 2)).pcs 0
      = Pc.returned (some 7) ∧
    (runSched ctorOk [0, 1, 0, 0, 0, 0, 0, 1, 1, 1] (Sys.init 2)).pcs 1
      = Pc.returned (some 7) :=
  have hall : (runSched ctorOk [0, 1, 0, 0, 0, 0, 0, 1, 1, 1] (Sys.init 2)).allReturned := by
    intro t ht
    have ht2 : t < 2 := ht
    interval_cases t <;> rfl
  have h := (single_construction ctorOk 2 (by decide) [0, 1, 0, 0, 0, 0, 0, 1, 1, 1]).2.2.2.1 hall
  ⟨h.1, by decide, by decide⟩

/-! ## One call among others: re-check and lock balance -/

/-- C9 (re-check under the lock).  A thread that read `nullptr` on the first
load and took the lock is at the second load.  When the guard then holds the
object at `a`: the second load reads `a` and changes nothing; the thread
skips `new` and the store and goes to the unlock; the unlock, in whatever
state `s1` it happens, frees the mutex, changes nothing else and the call
returns `a`.  Run in one go from `s`, the two steps and the function
`lockedSection` end in `s` with the mutex free: same guard, same objects, no
evaluation of `new`, no store.  Counted from the lock acquisition with the
mutex free, the only other change is one more acquisition. -/
theorem recheck_under_lock (ctor : Ctor) (t : Tid) (s : Shared) (a : Addr)
    (h : s.m_instance = some a) :
    step ctor t Pc.loadRelaxed s = some (Pc.unlock (some a), s) ∧
    (∀ s1, step ctor t (Pc.unlock (some a)) s1
      = some (Pc.returned (some a), { s1 with m_mutex := none })) ∧
    run ctor t 2 (Pc.loadRelaxed, s) = (Pc.returned (some a), { s with m_mutex := none }) ∧
    lockedSection ctor s = (Outcome.returned (some a), { s with m_mutex := none }) ∧
    (s.m_mutex = none →
      run ctor t 3 (Pc.lock, s)
        = (Pc.returned (some a), { s with lockCount := s.lockCount + 1 }) ∧
      slowPath ctor t s
        = (Outcome.returned (some a), { s with lockCount := s.lockCount + 1 })) := by
  refine ⟨by simp [step, h], fun s1 => rfl, by simp [run, step, h],
    by simp [lockedSection, h], fun hm => ⟨?_, ?_⟩⟩
  · simp [run, step, h, hm]
  · simp [slowPath, lockedSection, h, hm]

/-- Witness for C9: two threads read `nullptr`, thread 0 constructs and
publishes the object at address 7 and unlocks, thread 1 takes the lock.
Thread 1 is then at the second load with the guard present, and returns 7
without constructing. -/
theorem recheck_under_lock_witness :
    (runSched ctorOk [0, 1, 0, 0, 0, 0, 0, 1] (Sys.init 2)).pcs 1 = Pc.loadRelaxed ∧
    (runSched ctorOk [0, 1, 0, 0, 0, 0, 0, 1] (Sys.init 2)).shared.m_instance = some 7 ∧
    run ctorOk 1 2 (Pc.loadRelaxed, (runSched ctorOk [0, 1, 0, 0, 0, 0, 0, 1] (Sys.init 2)).shared)
      = (Pc.returned (some 7),
          { m_instance := some 7, m_mutex := none, newCalls := 1, instances := [7],
            lockCount := 2, storeCount := 1 }) :=
  ⟨by decide, by decide,
   (recheck_under_lock ctorOk 1
      (runSched ctorOk [0, 1, 0, 0, 0, 0, 0, 1] (Sys.init 2)).shared 7 (by decide)).2.2.1⟩

/-- The state after `k + 1` steps is the state after `k` steps followed by one
more step, when one can be taken. -/
theorem run_succ_last (ctor : Ctor) (t : Tid) (k : Nat) (c : Pc × Shared) :
    run ctor t (k + 1) c
      = match step ctor t (run ctor t k c).1 (run ctor t k c).2 with
        | some c1 => c1
        | none => run ctor t k c := by
  induction k generalizing c with
  | zero => cases hs : step ctor t c.1 c.2 <;> simp [run, hs]
  | succ k ih =>
    cases hs : step ctor t c.1 c.2 with
    | none => simp [run, hs]
    | some c1 =>
      have e1 : run ctor t (k + 1 + 1) c = run ctor t (k + 1) c1 := by
        conv_lhs => rw [run]
        simp [hs]
      have e2 : run ctor t (k + 1) c = run ctor t k c1 := by
        conv_lhs => rw [run]
        simp [hs]
      rw [e1, e2, ih c1]

/-- A step keeps the mutex in line with the program point: held by `t`
exactly between lock and unlock. -/
theorem step_lock_inv (ctor : Ctor) (t : Tid) (pc : Pc) (s : Shared) (r : Pc × Shared)
    (h : step ctor t pc s = some r)
    (hl : s.m_mutex = if pc.holdsLock = true then some t else none) :
    r.2.m_mutex = if r.1.holdsLock = true then some t else none := by
  cases pc with
  | loadAcquire =>
    cases hi : s.m_instance <;> simp [step, hi] at h <;> subst h <;>
      simpa [Pc.holdsLock] using hl
  | lock =>
    cases hm : s.m_mutex <;> simp [step, hm] at h
    subst h
    simp [Pc.holdsLock]
  | loadRelaxed =>
    cases hi : s.m_instance <;> simp [step, hi] at h <;> subst h <;>
      simpa [Pc.holdsLock] using hl
  | construct =>
    cases hk : ctor s.newCalls <;> simp [step, hk] at h <;> subst h <;>
      simpa [Pc.holdsLock] using hl
  | storeRelease a =>
    simp [step] at h
    subst h
    simpa [Pc.holdsLock] using hl
  | unlock p =>
    simp [step] at h
    subst h
    simp [Pc.holdsLock]
  | unwind =>
    simp [step] at h
    subst h
    simp [Pc.holdsLock]
  | returned p => simp [step] at h
  | threw => simp [step] at h

/-- A step that evaluates `new` or writes the guard starts and ends between
lock and unlock. -/
theorem step_effect_held (ctor : Ctor) (t : Tid) (pc : Pc) (s : Shared) (r : Pc × Shared)
    (h : step ctor t pc s = some r)
    (he : r.2.m_instance ≠ s.m_instance ∨ r.2.newCalls ≠ s.newCalls) :
    pc.holdsLock = true ∧ r.1.holdsLock = true := by
  cases pc with
  | loadAcquire => cases hi : s.m_instance <;> simp [step, hi] at h <;> subst h <;> simp at he
  | lock =>
    cases hm : s.m_mutex <;> simp [step, hm] at h
    subst h
    simp at he
  | loadRelaxed => cases hi : s.m_instance <;> simp [step, hi] at h <;> subst h <;> simp at he
  | construct =>
    cases hk : ctor s.newCalls <;> simp [step, hk] at h <;> subst h <;> simp [Pc.holdsLock]
  | storeRelease a =>
    simp [step] at h
    subst h
    simp [Pc.holdsLock]
  | unlock p =>
    simp [step] at h
    subst h
    simp at he
  | unwind =>
    simp [step] at h
    subst h
    simp at he
  | returned p => simp [step] at h
  | threw => simp [step] at h

/-- Along a lone run that starts in line, the mutex stays in line with the
program point. -/
theorem run_lock_inv (ctor : Ctor) (t : Tid) (k : Nat) (c : Pc × Shared)
    (hl : c.2.m_mutex = if c.1.holdsLock = true then some t else none) :
    (run ctor t k c).2.m_mutex = if (run ctor t k c).1.holdsLock = true then some t else none := by
  induction k with
  | zero => exact hl
  | succ k ih =>
    rw [run_succ_last]
    cases hs : step ctor t (run ctor t k c).1 (run ctor t k c).2 with
    | none => exact ih
    | some r => exact step_lock_inv ctor t _ _ r hs ih

/-- Six steps from the entry, or from the lock acquisition, with the mutex
free end the call. -/
theorem run_six_finished (ctor : Ctor) (t : Tid) (s : Shared) (hm : s.m_mutex = none)
    (pc0 : Pc) (hpc : pc0 = Pc.loadAcquire ∨ pc0 = Pc.lock) :
    (run ctor t 6 (pc0, s)).1.finished = true := by
  rcases s with ⟨inst, mtx, nc, ins, lc, sc⟩
  simp only at hm
  subst hm
  rcases hpc with rfl | rfl
  · cases inst with
    | some a => simp [run, step, Pc.finished]
    | none => cases hc : ctor nc <;> simp [run, step, hc, Pc.finished]
  · cases inst with
    | some a => simp [run, step, Pc.finished]
    | none => cases hc : ctor nc <;> simp [run, step, hc, Pc.finished]

/-- C10 (lock balance).  A call made with `m_mutex` free does not wait, and
the mutex is free again when it exits, on each of its paths: `getInstance`
covers the fast path, the constructing path and the failing path, `slowPath`
from a present guard the path that finds the guard on the re-check.  As
steps, from the entry or from the lock acquisition that follows a first load
of `nullptr`: after six steps the call is over with the mutex free; after any
number of steps the mutex is held by the caller exactly when the caller is
between its acquisition and its release, and free otherwise; and a step that
evaluates `new` or changes `m_instance` starts and ends with the mutex held by
the caller. -/
theorem getInstance_lock_balance (ctor : Ctor) (t : Tid) (s : Shared) (hm : s.m_mutex = none) :
    ((getInstance ctor t s).1 ≠ Outcome.blocked ∧ (getInstance ctor t s).2.m_mutex = none) ∧
    ((slowPath ctor t s).1 ≠ Outcome.blocked ∧ (slowPath ctor t s).2.m_mutex = none) ∧
    ∀ pc0, (pc0 = Pc.loadAcquire ∨ pc0 = Pc.lock) →
      ((run ctor t 6 (pc0, s)).1.finished = true ∧ (run ctor t 6 (pc0, s)).2.m_mutex = none) ∧
      ∀ k,
        ((run ctor t k (pc0, s)).2.m_mutex
          = if (run ctor t k (pc0, s)).1.holdsLock = true then some t else none) ∧
        (((run ctor t (k + 1) (pc0, s)).2.m_instance ≠ (run ctor t k (pc0, s)).2.m_instance ∨
          (run ctor t (k + 1) (pc0, s)).2.newCalls ≠ (run ctor t k (pc0, s)).2.newCalls) →
          (run ctor t k (pc0, s)).2.m_mutex = some t ∧
          (run ctor t (k + 1) (pc0, s)).2.m_mutex = some t) := by
  refine ⟨?_, ?_, fun pc0 hpc => ?_⟩
  · rcases s with ⟨inst, mtx, nc, ins, lc, sc⟩
    simp only at hm
    subst hm
    cases inst with
    | some a => simp [getInstance]
    | none => cases hc : ctor nc <;> simp [getInstance, slowPath, lockedSection, hc]
  · rcases s with ⟨inst, mtx, nc, ins, lc, sc⟩
    simp only at hm
    subst hm
    cases inst with
    | some a => simp [slowPath, lockedSection]
    | none => cases hc : ctor nc <;> simp [slowPath, lockedSection, hc]
  · have hstart : (pc0, s).2.m_mutex = if (pc0, s).1.holdsLock = true then some t else none := by
      rcases hpc with rfl | rfl <;> simpa [Pc.holdsLock] using hm
    have hinv := fun k => run_lock_inv ctor t k (pc0, s) hstart
    have hfin := run_six_finished ctor t s hm pc0 hpc
    refine ⟨⟨hfin, ?_⟩, fun k => ⟨hinv k, fun he => ?_⟩⟩
    · have h6 := hinv 6
      cases hq : (run ctor t 6 (pc0, s)).1 <;> simp [hq, Pc.finished] at hfin <;>
        simpa [hq, Pc.holdsLock] using h6
    · have hk := hinv k
      have hk1 := hinv (k + 1)
      rw [run_succ_last] at he hk1 ⊢
      cases hs : step ctor t (run ctor t k (pc0, s)).1 (run ctor t k (pc0, s)).2 with
      | none => simp [hs] at he
      | some r =>
        simp only [hs] at he hk1 ⊢
        obtain ⟨h1, h2⟩ := step_effect_held ctor t _ _ r hs he
        rw [h1] at hk
        rw [h2] at hk1
        exact ⟨by simpa using hk, by simpa using hk1⟩

/-- Witness for C10: the constructing call from the initial state, where the
third step (`new`, step index 3) happens with the mutex held by thread 0 and
the call ends with the mutex free. -/
theorem getInstance_lock_balance_witness :
    (getInstance ctorOk 0 Shared.init).2.m_mutex = none ∧
    (run ctorOk 0 3 (Pc.loadAcquire, Shared.init)).2.m_mutex = some 0 ∧
    (run ctorOk 0 4 (Pc.loadAcquire, Shared.init)).2.m_mutex = some 0 ∧
    (run ctorOk 0 6 (Pc.loadAcquire, Shared.init)).2.m_mutex = none :=
  have h := getInstance_lock_balance ctorOk 0 Shared.init rfl
  have h3 := ((h.2.2 Pc.loadAcquire (Or.inl rfl)).2 3).2 (Or.inr (by decide))
  ⟨h.1.2, h3.1, h3.2, (h.2.2 Pc.loadAcquire (Or.inl rfl)).1.2⟩

/-! ## What a thread sees of the object it gets -/

/-- Without the views, a step with views is a step of the system. -/
theorem viewStep_sys (o : Orders) (ctor : Ctor) (t : Tid) (v : VSys) :
    (viewStep o ctor t v).sys = sysStep ctor t v.sys := by
  unfold viewStep sysStep
  split
  · split <;> rfl
  · rfl

/-- Without the views, a schedule with views is a schedule of the system. -/
theorem runView_sys (o : Orders) (ctor : Ctor) (sched : List Tid) (v : VSys) :
    (runView o ctor sched v).sys = runSched ctor sched v.sys := by
  induction sched generalizing v with
  | nil => rfl
  | cons t ts ih => rw [runView, ih, viewStep_sys, runSched]

/-- The invariant of the views holds at process start. -/
theorem vinv_init (n : Nat) : VInv (VSys.init n) := by
  refine ⟨inv_init n, ?_, ?_, ?_, ?_, ?_, ?_⟩ <;>
    simp [VSys.init, Sys.init, Shared.init, nullptr]

/-- A step that leaves guard, mutex and the views left there alone, and only
adds to the view of its thread, keeps the invariant of the views as soon as
the thread sees the object its new program point carries. -/
theorem VInv.keepsViews {v : VSys} (h : VInv v) (t : Tid) (pc : Pc) (s1 : Shared) (w : View)
    (hb : Inv { v.sys with pcs := Function.update v.sys.pcs t pc, shared := s1 })
    (hi : s1.m_instance = v.sys.shared.m_instance) (hm : s1.m_mutex = v.sys.shared.m_mutex)
    (hw : ∀ a, a ∈ v.views t → a ∈ w)
    (h2 : ∀ a, pc = Pc.storeRelease a → a ∈ w)
    (h3 : ∀ a, pc = Pc.unlock (some a) → a ∈ w)
    (h4 : ∀ a, pc = Pc.returned (some a) → a ∈ w) :
    VInv { sys := { v.sys with pcs := Function.update v.sys.pcs t pc, shared := s1 },
           views := Function.update v.views t w,
           instView := v.instView, mutexView := v.mutexView } := by
  refine ⟨hb, fun a ha => ?_, fun u b => ?_, fun u b => ?_, fun u b => ?_, fun a ha hf => ?_,
    fun b u hb1 hb2 => ?_⟩
  · exact h.published a (by simpa [hi] using ha)
  · by_cases hu : u = t
    · subst hu
      simpa using h2 b
    · simpa [Function.update_apply, hu] using h.atStore u b
  · by_cases hu : u = t
    · subst hu
      simpa using h3 b
    · simpa [Function.update_apply, hu] using h.atUnlock u b
  · by_cases hu : u = t
    · subst hu
      simpa using h4 b
    · simpa [Function.update_apply, hu] using h.atReturned u b
  · exact h.free a (by simpa [hi] using ha) (by simpa [hm] using hf)
  · have hheld := h.held b u (by simpa [hi] using hb1) (by simpa [hm] using hb2)
    by_cases hu : u = t
    · subst hu
      simpa using hw b hheld
    · simpa [Function.update_apply, hu] using hheld

/-- Every step keeps the invariant of the views, with the orders of the
source. -/
theorem vinv_step (ctor : Ctor) (t : Tid) (v : VSys) (h : VInv v) :
    VInv (viewStep sourceOrders ctor t v) := by
  have hb : Inv (viewStep sourceOrders ctor t v).sys := by
    rw [viewStep_sys]
    exact inv_step ctor t v.sys h.base
  by_cases htn : t < v.sys.n
  swap
  · have e : viewStep sourceOrders ctor t v = v := by simp [viewStep, htn]
    rw [e]
    exact h
  cases hs : step ctor t (v.sys.pcs t) v.sys.shared with
  | none =>
    have e : viewStep sourceOrders ctor t v = v := by simp [viewStep, htn, hs]
    rw [e]
    exact h
  | some r =>
    have e : viewStep sourceOrders ctor t v
        = { sys := { v.sys with pcs := Function.update v.sys.pcs t r.1, shared := r.2 },
            views := Function.update v.views t
              (viewAfter sourceOrders (v.sys.pcs t) r.1 (v.views t) v.instView v.mutexView),
            instView := instViewAfter sourceOrders (v.sys.pcs t) (v.views t) v.instView,
            mutexView := mutexViewAfter (v.sys.pcs t) (v.views t) v.mutexView } := by
      simp [viewStep, htn, hs]
    rw [e] at hb ⊢
    have hmx := h.base.mutex t
    cases hpc : v.sys.pcs t with
    | loadAcquire =>
      rw [hpc] at hs
      cases hi : v.sys.shared.m_instance with
      | some a =>
        simp only [step, hi, Option.some.injEq] at hs
        subst hs
        refine h.keepsViews t _ _ _ hb rfl rfl (fun b hb1 => ?_) (by simp) (by simp) (fun b hq => ?_)
        · simp [viewAfter, sourceOrders, hb1]
        · have hq2 : a = b := by simpa using hq
          subst hq2
          simp [viewAfter, sourceOrders, h.published a hi]
      | none =>
        simp only [step, hi, Option.some.injEq] at hs
        subst hs
        refine h.keepsViews t _ _ _ hb rfl rfl (fun b hb1 => ?_) (by simp) (by simp) (by simp)
        simp [viewAfter, sourceOrders, hb1]
    | lock =>
      rw [hpc] at hs
      cases hm : v.sys.shared.m_mutex with
      | some o => simp [step, hm] at hs
      | none =>
        simp only [step, hm, Option.some.injEq] at hs
        subst hs
        refine ⟨hb, fun b hb1 => h.published b hb1, fun u b => ?_, fun u b => ?_, fun u b => ?_,
          fun b _ hf => ?_, fun b u hb1 hb2 => ?_⟩
        · by_cases hu : u = t
          · subst hu; simp
          · simpa [Function.update_apply, hu] using h.atStore u b
        · by_cases hu : u = t
          · subst hu; simp
          · simpa [Function.update_apply, hu] using h.atUnlock u b
        · by_cases hu : u = t
          · subst hu; simp
          · simpa [Function.update_apply, hu] using h.atReturned u b
        · simp at hf
        · have hu : t = u := by simpa using hb2
          subst hu
          have := h.free b hb1 hm
          simp [viewAfter, this]
    | loadRelaxed =>
      rw [hpc] at hs hmx
      have hown : v.sys.shared.m_mutex = some t := hmx.1 rfl
      cases hi : v.sys.shared.m_instance with
      | some a =>
        simp only [step, hi, Option.some.injEq] at hs
        subst hs
        refine h.keepsViews t _ _ _ hb rfl rfl (fun b hb1 => ?_) (by simp) (fun b hq => ?_) (by simp)
        · simp [viewAfter, sourceOrders, hb1]
        · have hq2 : a = b := by simpa using hq
          subst hq2
          simpa [viewAfter, sourceOrders] using h.held a t hi hown
      | none =>
        simp only [step, hi, Option.some.injEq] at hs
        subst hs
        refine h.keepsViews t _ _ _ hb rfl rfl (fun b hb1 => ?_) (by simp) (by simp) (by simp)
        simp [viewAfter, sourceOrders, hb1]
    | construct =>
      rw [hpc] at hs
      cases hk : ctor v.sys.shared.newCalls with
      | some a =>
        simp only [step, hk, Option.some.injEq] at hs
        subst hs
        refine h.keepsViews t _ _ _ hb rfl rfl (fun b hb1 => ?_) (fun b hq => ?_) (by simp) (by simp)
        · simp [viewAfter, hb1]
        · have hq2 : a = b := by simpa using hq
          subst hq2
          simp [viewAfter]
      | none =>
        simp only [step, hk, Option.some.injEq] at hs
        subst hs
        exact h.keepsViews t _ _ _ hb rfl rfl (fun b hb1 => hb1) (by simp) (by simp) (by simp)
    | storeRelease a =>
      rw [hpc] at hs hmx
      have hown : v.sys.shared.m_mutex = some t := hmx.1 rfl
      have hsee : a ∈ v.views t := h.atStore t a hpc
      simp only [step, Option.some.injEq] at hs
      subst hs
      refine ⟨hb, fun b hb1 => ?_, fun u b => ?_, fun u b => ?_, fun u b => ?_,
        fun b _ hf => ?_, fun b u hb1 hb2 => ?_⟩
      · have hab : a = b := by simpa using hb1
        subst hab
        simpa [instViewAfter, sourceOrders] using hsee
      · by_cases hu : u = t
        · subst hu; simp
        · simpa [Function.update_apply, hu] using h.atStore u b
      · by_cases hu : u = t
        · subst hu
          intro hq
          have hab : a = b := by simpa using hq
          subst hab
          simpa [viewAfter] using hsee
        · simpa [Function.update_apply, hu] using h.atUnlock u b
      · by_cases hu : u = t
        · subst hu; simp
        · simpa [Function.update_apply, hu] using h.atReturned u b
      · have hf2 : v.sys.shared.m_mutex = none := hf
        rw [hown] at hf2
        cases hf2
      · have hab : a = b := by simpa using hb1
        subst hab
        have hb3 : v.sys.shared.m_mutex = some u := hb2
        rw [hown] at hb3
        have hu : t = u := by simpa using hb3
        subst hu
        simpa [viewAfter] using hsee
    | unlock p =>
      rw [hpc] at hs hmx
      have hown : v.sys.shared.m_mutex = some t := hmx.1 rfl
      simp only [step, Option.some.injEq] at hs
      subst hs
      refine ⟨hb, fun b hb1 => h.published b hb1, fun u b => ?_, fun u b => ?_, fun u b => ?_,
        fun b hb1 _ => ?_, fun b u _ hb2 => ?_⟩
      · by_cases hu : u = t
        · subst hu; simp
        · simpa [Function.update_apply, hu] using h.atStore u b
      · by_cases hu : u = t
        · subst hu; simp
        · simpa [Function.update_apply, hu] using h.atUnlock u b
      · by_cases hu : u = t
        · subst hu
          intro hq
          have hpb : p = some b := by simpa using hq
          subst hpb
          simpa [viewAfter] using h.atUnlock u b hpc
        · simpa [Function.update_apply, hu] using h.atReturned u b
      · simpa [mutexViewAfter] using h.held b t hb1 hown
      · simp at hb2
    | unwind =>
      rw [hpc] at hs hmx
      have hown : v.sys.shared.m_mutex = some t := hmx.1 rfl
      simp only [step, Option.some.injEq] at hs
      subst hs
      refine ⟨hb, fun b hb1 => h.published b hb1, fun u b => ?_, fun u b => ?_, fun u b => ?_,
        fun b hb1 _ => ?_, fun b u _ hb2 => ?_⟩
      · by_cases hu : u = t
        · subst hu; simp
        · simpa [Function.update_apply, hu] using h.atStore u b
      · by_cases hu : u = t
        · subst hu; simp
        · simpa [Function.update_apply, hu] using h.atUnlock u b
      · by_cases hu : u = t
        · subst hu; simp
        · simpa [Function.update_apply, hu] using h.atReturned u b
      · simpa [mutexViewAfter] using h.held b t hb1 hown
      · simp at hb2
    | returned p =>
      rw [hpc] at hs
      simp [step] at hs
    | threw =>
      rw [hpc] at hs
      simp [step] at hs

/-- The invariant of the views holds after every schedule, with the orders
of the source. -/
theorem vinv_runView (ctor : Ctor) (sched : List Tid) (v : VSys) (h : VInv v) :
    VInv (runView sourceOrders ctor sched v) := by
  induction sched generalizing v with
  | nil => exact h
  | cons t ts ih => exact ih _ (vinv_step ctor t v h)

/-- A first load that finds the guard present returns its value and, having
acquire order, takes over the view left at `m_instance`. -/
theorem viewStep_first_load (ctor : Ctor) (t : Tid) (v : VSys) (a : Addr)
    (ht : t < v.sys.n) (hpc : v.sys.pcs t = Pc.loadAcquire)
    (hi : v.sys.shared.m_instance = some a) (hin : a ∈ v.instView) :
    (viewStep sourceOrders ctor t v).sys.pcs t = Pc.returned (some a) ∧
    a ∈ (viewStep sourceOrders ctor t v).views t := by
  have hs : step ctor t (v.sys.pcs t) v.sys.shared
      = some (Pc.returned (some a), v.sys.shared) := by
    rw [hpc]
    simp [step, hi]
  simp only [viewStep, ht, if_true, hs]
  simp [hpc, viewAfter, sourceOrders, hin]

/-- C8 (no partial visibility).  The first load of the source has acquire
order and its store has release order.  With these orders, for every
constructor behaviour, number of threads and schedule, in the state reached
(which, without the views, is the state of the plain interleaving): a thread
about to make its first load while the guard holds the object at `a` reads
`a`, returns it, and after that load sees the construction of `a`; every
thread that has returned `a` sees the construction of `a`, which is a
completed construction; and so does every thread that carries `a` in `tmp`
under the lock. -/
theorem no_partial_visibility (ctor : Ctor) (n : Nat) (sched : List Tid) :
    sourceOrders.firstLoad = MemoryOrder.acquire ∧
    sourceOrders.store = MemoryOrder.release ∧
    (runView sourceOrders ctor sched (VSys.init n)).sys = runSched ctor sched (Sys.init n) ∧
    (∀ t a, t < n →
      (runView sourceOrders ctor sched (VSys.init n)).sys.pcs t = Pc.loadAcquire →
      (runView sourceOrders ctor sched (VSys.init n)).sys.shared.m_instance = some a →
      (viewStep sourceOrders ctor t (runView sourceOrders ctor sched (VSys.init n))).sys.pcs t
        = Pc.returned (some a) ∧
      a ∈ (viewStep sourceOrders ctor t (runView sourceOrders ctor sched (VSys.init n))).views t) ∧
    (∀ t a, (runView sourceOrders ctor sched (VSys.init n)).sys.pcs t = Pc.returned (some a) →
      a ∈ (runView sourceOrders ctor sched (VSys.init n)).views t ∧
      a ∈ (runView sourceOrders ctor sched (VSys.init n)).sys.shared.instances) ∧
    (∀ t a, (runView sourceOrders ctor sched (VSys.init n)).sys.pcs t = Pc.unlock (some a) →
      a ∈ (runView sourceOrders ctor sched (VSys.init n)).views t ∧
      a ∈ (runView sourceOrders ctor sched (VSys.init n)).sys.shared.instances) := by
  have hv : VInv (runView sourceOrders ctor sched (VSys.init n)) :=
    vinv_runView ctor sched _ (vinv_init n)
  have hn : (runView sourceOrders ctor sched (VSys.init n)).sys.n = n := by
    rw [runView_sys]
    exact runSched_n ctor sched _
  refine ⟨rfl, rfl, runView_sys _ ctor sched _, fun t a ht hpc hi => ?_, fun t a hpc => ?_,
    fun t a hpc => ?_⟩
  · have ht2 : t < (runView sourceOrders ctor sched (VSys.init n)).sys.n := by
      rw [hn]
      exact ht
    exact viewStep_first_load ctor t _ a ht2 hpc hi (hv.published a hi)
  · refine ⟨hv.atReturned t a hpc, ?_⟩
    have hg := (hv.base.atReturned t (some a) hpc).1
    rw [(hv.base.present a hg).1]
    simp
  · refine ⟨hv.atUnlock t a hpc, ?_⟩
    have hg := (hv.base.atUnlock t (some a) hpc).1
    rw [(hv.base.present a hg).1]
    simp

/-- Witness for C8: thread 0 constructs and publishes the object at address 7
and still holds the lock when thread 1 makes its first load; thread 1 reads
7, returns it and sees its construction. -/
theorem no_partial_visibility_witness :
    (runView sourceOrders ctorOk [0, 0, 0, 0, 0] (VSys.init 2)).sys.shared.m_mutex = some 0 ∧
    (runView sourceOrders ctorOk [0, 0, 0, 0, 0, 1] (VSys.init 2)).sys.pcs 1
      = Pc.returned (some 7) ∧
    7 ∈ (viewStep sourceOrders ctorOk 1
      (runView sourceOrders ctorOk [0, 0, 0, 0, 0] (VSys.init 2))).views 1 ∧
    7 ∈ (runView sourceOrders ctorOk [0, 0, 0, 0, 0, 1] (VSys.init 2)).views 1 :=
  ⟨by decide, by decide,
   ((no_partial_visibility ctorOk 2 [0, 0, 0, 0, 0]).2.2.2.1 1 7 (by decide) (by decide)
      (by decide)).2,
   ((no_partial_visibility ctorOk 2 [0, 0, 0, 0, 0, 1]).2.2.2.2.1 1 7 (by decide)).1⟩

/-- The acquire order of the first load is needed: with that load relaxed,
on the same schedule thread 1 returns the object at address 7 without seeing
its construction. -/
theorem relaxed_first_load_misses :
    (runView { firstLoad := MemoryOrder.relaxed, secondLoad := MemoryOrder.relaxed,
               store := MemoryOrder.release } ctorOk [0, 0, 0, 0, 0, 1] (VSys.init 2)).sys.pcs 1
      = Pc.returned (some 7) ∧
    7 ∉ (runView { firstLoad := MemoryOrder.relaxed, secondLoad := MemoryOrder.relaxed,
                   store := MemoryOrder.release } ctorOk [0, 0, 0, 0, 0, 1] (VSys.init 2)).views 1 := by
  decide

/-- The release order of the store is needed: with the store relaxed, on the
same schedule thread 1 returns the object at address 7 without seeing its
construction. -/
theorem relaxed_store_misses :
    (runView { firstLoad := MemoryOrder.acquire, secondLoad := MemoryOrder.relaxed,
               store := MemoryOrder.relaxed } ctorOk [0, 0, 0, 0, 0, 1] (VSys.init 2)).sys.pcs 1
      = Pc.returned (some 7) ∧
    7 ∉ (runView { firstLoad := MemoryOrder.acquire, secondLoad := MemoryOrder.relaxed,
                   store := MemoryOrder.relaxed } ctorOk [0, 0, 0, 0, 0, 1] (VSys.init 2)).views 1 := by
  decide

/-- Counterexample for C4: two threads and a constructor that throws on its
first attempt.  Both threads read `nullptr`; thread 0 takes the lock, its
`new` throws and the lock guard releases the mutex; thread 1 takes the lock,
reads `nullptr` again, constructs the object at address 7 and publishes it.
Both calls are over and `new Singleton` has been evaluated twice, so the
constructor does not run exactly once under every interleaving. -/
theorem single_construction_not_exactly_once :
    (runSched ctorFailOnce [0, 1, 0, 0, 0, 1, 0, 1, 1, 1, 1, 1] (Sys.init 2)).pcs 0 = Pc.threw ∧
    (runSched ctorFailOnce [0, 1, 0, 0, 0, 1, 0, 1, 1, 1, 1, 1] (Sys.init 2)).pcs 1
      = Pc.returned (some 7) ∧
    (runSched ctorFailOnce [0, 1, 0, 0, 0, 1, 0, 1, 1, 1, 1, 1] (Sys.init 2)).shared.newCalls = 2 ∧
    ¬ (∀ (ctor : Ctor) (n : Nat) (sched : List Tid), 2 ≤ n →
        (runSched ctor sched (Sys.init n)).allFinished →
        (runSched ctor sched (Sys.init n)).shared.newCalls = 1) := by
  refine ⟨by decide, by decide, by decide, fun hall => ?_⟩
  have hfin : (runSched ctorFailOnce [0, 1, 0, 0, 0, 1, 0, 1, 1, 1, 1, 1]
      (Sys.init 2)).allFinished := by
    intro t ht
    have ht2 : t < 2 := ht
    interval_cases t <;> rfl
  have h := hall ctorFailOnce 2 [0, 1, 0, 0, 0, 1, 0, 1, 1, 1, 1, 1] (by decide) hfin
  exact absurd h (by decide)

end Singleton
